import Mathlib

/-!
# Verification of the `stock_strategy_check` backtest engine

A shallow embedding of `src/backtest.py` (the post-earnings-drift backtest
engine) and proofs of the specification claims about it.

Modelling conventions:
* Calendar dates (daily price bars, normalized earnings dates) are day
  numbers of type `Int`; pandas `Timestamp`s carrying a time-of-day (the raw
  earnings timestamps before `.normalize()`) are `Ts` pairs of a day and a
  minute-of-day, ordered lexicographically as pandas orders timestamps.
* Prices and returns are exact rationals `ℚ`.  Float `NaN` is modelled by
  `Option` (`none` = NaN), which is how every NaN in this program arises
  (empty slice in `pct_return`, missing cells, `mean`/`median` of nothing).
* The external collaborators (yfinance download + earnings calendar,
  dateutil's `relativedelta` month arithmetic) are an `Env` record: the
  post-download forward-filled price table, the raw earnings-timestamp
  fetch (with `none` for a raised provider exception, which
  `get_earnings_dates` catches), and the calendar month-addition function.
* `pandas.sort_values(["entry_date", "ticker"])` is modelled by a
  deterministic (stable insertion) sort on the key `(entry_date, ticker)`;
  ISO-date strings compare identically to the day numbers they encode.
* Statistics that the source computes with float powers / square roots
  (`CAGR`, `Sharpe`) take values in `Option ℝ`; the `sig > 0` gate of
  `sharpe` is expressed by the equivalent test `0 < variance` (for a
  nonempty return series `std(ddof=0) * sqrt(252) > 0 ↔ variance > 0`,
  and for the empty series both sides yield the undefined value).
-/

/-- A pandas `Timestamp` that may carry a time of day: the raw earnings
timestamps returned by the provider before `.normalize()`. -/
structure Ts where
  day : Int
  minute : Nat
deriving DecidableEq, Repr

/-- Timestamp order: lexicographic on (day, time-of-day). -/
def leTs (a b : Ts) : Prop :=
  a.day < b.day ∨ (a.day = b.day ∧ a.minute ≤ b.minute)

instance : DecidableRel leTs := fun a b =>
  inferInstanceAs (Decidable (_ ∨ _))

/-- `pd.Timestamp(E).normalize()`: drop the time of day. -/
def tsNormalize (t : Ts) : Int := t.day

/-- The external world of one run: the post-`download_prices` table
(sorted union date index and per-ticker forward-filled close columns,
`none` = the cell is NaN), the raw earnings-date fetch per ticker
(`none` = the provider call raised, which the source catches), and
dateutil's `relativedelta` calendar month-addition. -/
structure Env where
  dates : List Int
  col : String → Int → Option ℚ
  earnRaw : String → Option (List Ts)
  addMonths : Nat → Int → Int

/-- The run configuration consumed by `run_backtest` /
`run_backtest_baseline` (`default_config` keys that the engine reads). -/
structure Cfg where
  tickers : List String
  benchmark : String
  startDate : Int
  endDate : Int
  threshold : ℚ
  minPriceHistoryDays : Int
  calendarPadDays : Int

/-- One row of the trade ledger.  Dates are stored as day numbers (the
source stores their ISO strings, an order-preserving encoding); `r3` is
`Option ℚ` because the baseline variant stores `pct_return`'s possibly-NaN
result unchecked. -/
structure TradeRec where
  ticker : String
  earnDate : Int
  entryDate : Int
  exitDate : Int
  r3 : Option ℚ
  rHold : ℚ
deriving DecidableEq, Repr

/-- `list(dict.fromkeys(tickers))`: drop duplicates, keep first
occurrences in order. -/
def pyDedupAux (seen : List String) : List String → List String
  | [] => []
  | a :: l => if a ∈ seen then pyDedupAux seen l else a :: pyDedupAux (a :: seen) l

def pyDedup (l : List String) : List String := pyDedupAux [] l

/-- `index.max()` of a nonempty list (0 is a dummy for the empty case the
source never reaches: it raises there, behind guards that rule it out). -/
def listMaxI : List Int → Int
  | [] => 0
  | a :: t => t.foldl max a

/-- `index.min()` of a nonempty list (same dummy convention). -/
def listMinI : List Int → Int
  | [] => 0
  | a :: t => t.foldl min a

/-- `series.loc[:cutoff].iloc[-1]`: the last value whose date is at or
before `cutoff`; `none` when the slice is empty (an `IndexError` that
`pct_return` catches and turns into NaN). -/
def lastAtOrBefore (px : List (Int × ℚ)) (cutoff : Int) : Option ℚ :=
  px.foldl (fun acc e => if e.1 ≤ cutoff then some e.2 else acc) none

/-- `px.index.get_indexer([target], method="nearest")[0]` on an ascending
index: the member at minimal distance from `target`, later date preferred
on ties (pandas chooses the right neighbour when distances are equal on a
monotonically increasing index); `none` on an empty index (where pandas
raises and the caller's `except` skips the event). -/
def nearestDate (idx : List Int) (target : Int) : Option Int :=
  idx.foldl
    (fun best d =>
      match best with
      | none => some d
      | some b => if (d - target).natAbs ≤ (b - target).natAbs then some d else some b)
    none

/-- Cumulative product `(1 + r).cumprod()` continuation: each output entry
is `acc` times the prefix product so far. -/
def cumprodFrom (acc : ℚ) : List ℚ → List ℚ
  | [] => []
  | x :: t => (acc * x) :: cumprodFrom (acc * x) t

def cumprod (l : List ℚ) : List ℚ := cumprodFrom 1 l

/-- `series.pct_change().dropna()` on an all-number series: consecutive
ratios minus one, the first (NaN) entry dropped. -/
def pctChangeDrop : List ℚ → List ℚ
  | [] => []
  | [_] => []
  | p :: c :: t => (c / p - 1) :: pctChangeDrop (c :: t)

/-- `series.pct_change().fillna(0.0)` on a date-indexed series with
possibly-NaN values: the first entry and every entry whose own or previous
value is NaN become 0. -/
def pctChangeFill0Aux : (Int × Option ℚ) → List (Int × Option ℚ) → List (Int × ℚ)
  | _, [] => []
  | prev, cur :: t =>
      (cur.1,
        match prev.2, cur.2 with
        | some p, some c => c / p - 1
        | _, _ => 0) :: pctChangeFill0Aux cur t

def pctChangeFill0 : List (Int × Option ℚ) → List (Int × ℚ)
  | [] => []
  | x :: t => (x.1, 0) :: pctChangeFill0Aux x t

/-- `series.mean()` (0 on the empty list; the source never consumes that
value: every use is behind an emptiness or `sig > 0` guard). -/
def meanQ (l : List ℚ) : ℚ := l.sum / l.length

/-- Population variance, `std(ddof=0) ** 2`. -/
def varQ (l : List ℚ) : ℚ := (l.map (fun x => (x - meanQ l) ^ 2)).sum / l.length

/-- `series.median()`: middle of the sorted values, mean of the two middles
for even length. -/
def medianQ (l : List ℚ) : ℚ :=
  let s := List.insertionSort (· ≤ ·) l
  let n := s.length
  if n % 2 = 1 then s.getD (n / 2) 0
  else (s.getD (n / 2 - 1) 0 + s.getD (n / 2) 0) / 2

/-- Minimum of a nonempty list (`series.min()`); 0 is a dummy for the
empty case, which sits behind `if len(equity)` in the source. -/
def listMinQ : List ℚ → ℚ
  | [] => 0
  | a :: t => t.foldl min a

/-- `(equity / equity.cummax() - 1)` continued from running maximum `m`. -/
def drawdownsAux (m : ℚ) : List ℚ → List ℚ
  | [] => []
  | x :: t => (x / max m x - 1) :: drawdownsAux (max m x) t

/-- `float(((equity / equity.cummax()) - 1.0).min()) if len(equity) else nan`. -/
def maxDrawdownOf : List ℚ → Option ℚ
  | [] => none
  | x :: t => some (listMinQ (drawdownsAux x (x :: t)))

/-- `get_earnings_dates(ticker, start_date, end_date)`: `[]` when the
provider raised or returned nothing, else the raw timestamps filtered to
`[startTs, endTs]` and sorted ascending. -/
def getEarningsDates (env : Env) (tkr : String) (startTs endTs : Ts) : List Ts :=
  match env.earnRaw tkr with
  | none => []
  | some df =>
    if df = [] then []
    else List.insertionSort leTs
      (df.filter (fun ts => decide (leTs startTs ts) && decide (leTs ts endTs)))

/-- `prices[tkr].dropna()`: the dated values present in that column, in
index order. -/
def pxSeries (env : Env) (tkr : String) : List (Int × ℚ) :=
  env.dates.filterMap (fun d => (env.col tkr d).map (fun v => (d, v)))

/-- `pct_return(series, start_dt, end_dt)`. -/
def pctReturn (px : List (Int × ℚ)) (startDt endDt : Int) : Option ℚ :=
  match lastAtOrBefore px endDt, lastAtOrBefore px startDt with
  | some s, some b => some (s / b - 1)
  | _, _ => none

/-- `end_date - pd.Timedelta(days=pad_days) if pad_days > 0 else end_date`. -/
def effectiveEnd (cfg : Cfg) : Int :=
  if 0 < cfg.calendarPadDays then cfg.endDate - cfg.calendarPadDays else cfg.endDate

/-- The body of `run_backtest`'s per-earnings-date loop (everything after
`E = pd.Timestamp(E).normalize()`), returning the appended record or
`none` for any `continue`. -/
def tradeStepDrift (env : Env) (cfg : Cfg) (tkr : String) (Eraw : Ts) : Option TradeRec :=
  let px := pxSeries env tkr
  let pxD := px.map Prod.fst
  let E := tsNormalize Eraw
  if E < listMinI pxD ∨ effectiveEnd cfg < E then none
  else
    match nearestDate pxD (env.addMonths 3 E), nearestDate pxD (env.addMonths 12 E) with
    | some entryTs, some exitTs =>
      if exitTs ≤ entryTs ∨ listMaxI env.dates ≤ entryTs then none
      else
        match pctReturn px E entryTs with
        | none => none
        | some r3m =>
          if cfg.threshold ≤ r3m then
            let entryPrice := ((px.lookup entryTs).getD 0)
            let exitPrice := ((px.lookup exitTs).getD 0)
            some { ticker := tkr, earnDate := E, entryDate := entryTs, exitDate := exitTs,
                   r3 := some r3m, rHold := exitPrice / entryPrice - 1 }
          else none
    | _, _ => none

/-- The body of `run_backtest_baseline`'s per-earnings-date loop: same
guards, but no NaN check and no threshold check before appending. -/
def tradeStepBase (env : Env) (cfg : Cfg) (tkr : String) (Eraw : Ts) : Option TradeRec :=
  let px := pxSeries env tkr
  let pxD := px.map Prod.fst
  let E := tsNormalize Eraw
  if E < listMinI pxD ∨ effectiveEnd cfg < E then none
  else
    match nearestDate pxD (env.addMonths 3 E), nearestDate pxD (env.addMonths 12 E) with
    | some entryTs, some exitTs =>
      if exitTs ≤ entryTs ∨ listMaxI env.dates ≤ entryTs then none
      else
        let entryPrice := ((px.lookup entryTs).getD 0)
        let exitPrice := ((px.lookup exitTs).getD 0)
        some { ticker := tkr, earnDate := E, entryDate := entryTs, exitDate := exitTs,
               r3 := pctReturn px E entryTs, rHold := exitPrice / entryPrice - 1 }
    | _, _ => none

/-- `run_backtest`'s per-ticker loop body: skip empty or short price
histories, then run the per-event loop over the fetched earnings dates. -/
def driftTradesFor (env : Env) (cfg : Cfg) (tkr : String) : List TradeRec :=
  let px := pxSeries env tkr
  if px.isEmpty then []
  else if listMaxI (px.map Prod.fst) - listMinI (px.map Prod.fst) < cfg.minPriceHistoryDays then []
  else
    (getEarningsDates env tkr ⟨cfg.startDate, 0⟩ ⟨effectiveEnd cfg, 0⟩).filterMap
      (tradeStepDrift env cfg tkr)

/-- `run_backtest_baseline`'s per-ticker loop body. -/
def baseTradesFor (env : Env) (cfg : Cfg) (tkr : String) : List TradeRec :=
  let px := pxSeries env tkr
  if px.isEmpty then []
  else if listMaxI (px.map Prod.fst) - listMinI (px.map Prod.fst) < cfg.minPriceHistoryDays then []
  else
    (getEarningsDates env tkr ⟨cfg.startDate, 0⟩ ⟨effectiveEnd cfg, 0⟩).filterMap
      (tradeStepBase env cfg tkr)

/-- The drift variant's `trade_ledger` after the full ticker loop. -/
def ledgerDrift (env : Env) (cfg : Cfg) : List TradeRec :=
  (pyDedup cfg.tickers).flatMap (driftTradesFor env cfg)

/-- The baseline variant's `trade_ledger`. -/
def ledgerBase (env : Env) (cfg : Cfg) : List TradeRec :=
  (pyDedup cfg.tickers).flatMap (baseTradesFor env cfg)

/-- `sort_values(["entry_date", "ticker"])`'s key order (ISO-date strings
compare like the day numbers they encode). -/
def keyLE (a b : TradeRec) : Prop :=
  a.entryDate < b.entryDate ∨ (a.entryDate = b.entryDate ∧ a.ticker ≤ b.ticker)

instance : DecidableRel keyLE := fun a b =>
  inferInstanceAs (Decidable (_ ∨ _))

/-- The finalized (sorted) trade ledger DataFrame. -/
def sortTrades (l : List TradeRec) : List TradeRec := List.insertionSort keyLE l

def sortedTradesDrift (env : Env) (cfg : Cfg) : List TradeRec :=
  sortTrades (ledgerDrift env cfg)

def sortedTradesBase (env : Env) (cfg : Cfg) : List TradeRec :=
  sortTrades (ledgerBase env cfg)

/-- `daily_index = prices.index[(prices.index >= start) & (prices.index <= end)]`. -/
def dailyIndexOf (env : Env) (cfg : Cfg) : List Int :=
  env.dates.filter (fun d => decide (cfg.startDate ≤ d) && decide (d ≤ cfg.endDate))

/-- One trade's position series:
`prices[ticker].loc[entry:exit].pct_change().fillna(0.0)`. -/
def segOf (env : Env) (tkr : String) (a b : Int) : List (Int × ℚ) :=
  pctChangeFill0 ((env.dates.filter (fun d => decide (a ≤ d) && decide (d ≤ b))).map
    (fun d => (d, env.col tkr d)))

/-- The open positions' percent changes at date `d`: the columns of
`pos_df` that have a (non-NaN) row at `d`. -/
def openVals (env : Env) (trades : List TradeRec) (d : Int) : List ℚ :=
  trades.filterMap (fun tr => (segOf env tr.ticker tr.entryDate tr.exitDate).lookup d)

/-- `pos_df.mean(axis=1).reindex(daily_index).fillna(0.0)` at one date:
the NaN-skipping mean over open positions, 0 when none is open. -/
def dailyRet (env : Env) (trades : List TradeRec) (d : Int) : ℚ :=
  let vs := openVals env trades d
  if vs.isEmpty then 0 else vs.sum / vs.length

/-- The strategy equity curve's values over the canonical date index:
flat 1.0 when no positions exist, else `(1 + daily_ret).cumprod()`. -/
def equityValues (env : Env) (cfg : Cfg) (trades : List TradeRec) : List ℚ :=
  if trades.isEmpty then (dailyIndexOf env cfg).map (fun _ => (1 : ℚ))
  else cumprod ((dailyIndexOf env cfg).map (fun d => 1 + dailyRet env trades d))

/-- `bench_prices.reindex(daily_index).ffill()`: the benchmark column
looked up on the canonical index, forward-filled. -/
def ffillOpt (last : Option ℚ) : List (Int × Option ℚ) → List (Int × Option ℚ)
  | [] => []
  | (d, v) :: t =>
    match v with
    | some x => (d, some x) :: ffillOpt (some x) t
    | none => (d, last) :: ffillOpt last t

def benchSeries (env : Env) (cfg : Cfg) : List (Int × Option ℚ) :=
  ffillOpt none ((dailyIndexOf env cfg).map (fun d => (d, env.col cfg.benchmark d)))

/-- `bench_seg = ... .pct_change().fillna(0.0)`. -/
def benchReturns (env : Env) (cfg : Cfg) : List ℚ :=
  (pctChangeFill0 (benchSeries env cfg)).map Prod.snd

/-- `bench_equity = (1.0 + bench_seg).cumprod()`. -/
def benchEquityValues (env : Env) (cfg : Cfg) : List ℚ :=
  cumprod ((benchReturns env cfg).map (fun r => 1 + r))

/-- The `stats` dict.  `none` is a float NaN. -/
structure Stats where
  trades : Nat
  winRate : Option ℚ
  avgTradeReturn : Option ℚ
  medianTradeReturn : Option ℚ
  equityCagr : Option ℝ
  benchCagr : Option ℝ
  sharpe : Option ℝ
  benchSharpe : Option ℝ
  maxDrawdown : Option ℚ
  benchMaxDrawdown : Option ℚ

/-- `float(equity.iloc[-1] ** (252.0 / len(equity)) - 1.0) if len(equity) > 1 else nan`. -/
noncomputable def cagrOf (eq : List ℚ) : Option ℝ :=
  if 1 < eq.length then some (Real.rpow ((eq.getLastD 0 : ℚ) : ℝ) (252 / (eq.length : ℝ)) - 1)
  else none

/-- The local `sharpe(returns)`: `mu / sig` when
`sig = std(ddof=0) * sqrt(252)` is positive, NaN otherwise.  `sig > 0` is
tested as `0 < varQ` (equivalent for a nonempty series; for the empty
series both give the undefined value). -/
noncomputable def sharpeOf (rets : List ℚ) : Option ℝ :=
  if 0 < varQ rets then
    some ((meanQ rets * 252 : ℚ) / (Real.sqrt (varQ rets) * Real.sqrt 252))
  else none

/-- The `stats` dict of `run_backtest` / `run_backtest_baseline`. -/
noncomputable def statsOf (trades : List TradeRec) (equity benchEquity : List ℚ) : Stats where
  trades := trades.length
  winRate :=
    if trades.isEmpty then none
    else some (((trades.filter (fun tr => decide (0 < tr.rHold))).length : ℚ) / trades.length)
  avgTradeReturn := if trades.isEmpty then none else some (meanQ (trades.map TradeRec.rHold))
  medianTradeReturn := if trades.isEmpty then none else some (medianQ (trades.map TradeRec.rHold))
  equityCagr := cagrOf equity
  benchCagr := cagrOf benchEquity
  sharpe := sharpeOf (pctChangeDrop equity)
  benchSharpe := sharpeOf (pctChangeDrop benchEquity)
  maxDrawdown := maxDrawdownOf equity
  benchMaxDrawdown := maxDrawdownOf benchEquity

/-- The tuple `(stats, trades, equity, bench_equity)`. -/
structure BTResult where
  stats : Stats
  trades : List TradeRec
  equity : List ℚ
  benchEquity : List ℚ

/-- `run_backtest(cfg)` over the fetched data `env`. -/
noncomputable def runBacktest (env : Env) (cfg : Cfg) : BTResult :=
  let trades := sortedTradesDrift env cfg
  let equity := equityValues env cfg trades
  let benchEq := benchEquityValues env cfg
  ⟨statsOf trades equity benchEq, trades, equity, benchEq⟩

/-- `run_backtest_baseline(cfg)` over the fetched data `env`. -/
noncomputable def runBacktestBaseline (env : Env) (cfg : Cfg) : BTResult :=
  let trades := sortedTradesBase env cfg
  let equity := equityValues env cfg trades
  let benchEq := benchEquityValues env cfg
  ⟨statsOf trades equity benchEq, trades, equity, benchEq⟩

/-- The drift variant's entry filter, as a predicate on baseline records:
`r_3m >= threshold`, false on NaN (both `np.isnan` skip and float
`NaN >= t`). -/
def meetsThreshold (θ : ℚ) (r : TradeRec) : Bool :=
  match r.r3 with
  | some v => decide (θ ≤ v)
  | none => false

/-! ## Concrete instances used by witnesses and counterexamples

Day numbers are days since 2020-01-01, so that the concrete
`addMonths` values below are genuine `relativedelta` calendar arithmetic:
2020-01-01 + 3 months = 2020-04-01 (day 91), + 12 months = 2021-01-01
(day 366). -/

def envW : Env where
  dates := [0, 91, 366]
  col := fun t d =>
    if t = "A" then (if d = 0 then some 1 else if d = 91 then some 2 else if d = 366 then some 3 else none)
    else if t = "B" then (if d = 0 then some 10 else if d = 91 then some 11 else if d = 366 then some 12 else none)
    else none
  earnRaw := fun t => if t = "A" then some [⟨0, 0⟩] else none
  addMonths := fun m d => if m = 3 then d + 91 else d + 366

def cfgW : Cfg where
  tickers := ["A"]
  benchmark := "B"
  startDate := 0
  endDate := 400
  threshold := 0
  minPriceHistoryDays := 300
  calendarPadDays := 5

/-- The single trade `envW`/`cfgW` produces. -/
def tradeW : TradeRec where
  ticker := "A"
  earnDate := 0
  entryDate := 91
  exitDate := 366
  r3 := some 1
  rHold := 1/2

/-- `cfgW` with the signal threshold raised to exactly the signal return. -/
def cfgW1 : Cfg := { cfgW with threshold := 1 }

/-- `cfgW` with the signal threshold strictly above the signal return. -/
def cfgW2 : Cfg := { cfgW with threshold := 2 }

/-- `cfgW` with an empty ticker list. -/
def cfgE : Cfg := { cfgW with tickers := [] }

/-- Counterexample data for the de-duplication claim: the provider returns
two timestamps on the same calendar day (midnight and 16:00 = minute 960),
both inside the window; prices are flat so the signal return is 0. -/
def envC6 : Env where
  dates := [0, 91, 366]
  col := fun t d =>
    if t = "A" then (if d = 0 then some 1 else if d = 91 then some 1 else if d = 366 then some 1 else none)
    else none
  earnRaw := fun t => if t = "A" then some [⟨0, 0⟩, ⟨0, 960⟩] else none
  addMonths := fun m d => if m = 3 then d + 91 else d + 366

/-- Counterexample data for the equity-starts-at-1 claim: the union price
index is sparse (2019-12-22 = day -10, 2020-07-19 = day 200, 2020-10-27 =
day 300), so the nearest trading day to 2020-04-01 (day 91, the entry
target for the 2020-01-01 earnings date) is day -10, *before* the
backtest window. -/
def envC9 : Env where
  dates := [-10, 200, 300]
  col := fun t d =>
    if t = "A" then (if d = -10 then some 1 else if d = 200 then some 2 else if d = 300 then some 2 else none)
    else none
  earnRaw := fun t => if t = "A" then some [⟨0, 0⟩] else none
  addMonths := fun m d => if m = 3 then d + 91 else d + 366

def cfgC9 : Cfg where
  tickers := ["A"]
  benchmark := "B"
  startDate := 0
  endDate := 400
  threshold := 0
  minPriceHistoryDays := 300
  calendarPadDays := 5

/-! ## General lemmas -/

theorem le_foldl_max (t : List Int) : ∀ b : Int, b ≤ t.foldl max b := by
  induction t with
  | nil => intro b; exact le_refl b
  | cons c t ih =>
    intro b
    exact le_trans (le_max_left b c) (ih (max b c))

theorem mem_le_foldl_max (t : List Int) : ∀ (b a : Int), a ∈ t → a ≤ t.foldl max b := by
  induction t with
  | nil => intro b a h; cases h
  | cons c t ih =>
    intro b a h
    rcases List.mem_cons.mp h with h | h
    · subst h
      exact le_trans (le_max_right b a) (le_foldl_max t (max b a))
    · exact ih (max b c) a h

theorem mem_le_listMaxI {a : Int} {l : List Int} (h : a ∈ l) : a ≤ listMaxI l := by
  cases l with
  | nil => cases h
  | cons b t =>
    rcases List.mem_cons.mp h with h | h
    · subst h; exact le_foldl_max t a
    · exact mem_le_foldl_max t b a h

theorem nearest_foldl_mem (target : Int) :
    ∀ (l : List Int) (acc : Option Int) (r : Int),
      l.foldl
        (fun best d =>
          match best with
          | none => some d
          | some b => if (d - target).natAbs ≤ (b - target).natAbs then some d else some b)
        acc = some r →
      acc = some r ∨ r ∈ l := by
  intro l
  induction l with
  | nil => intro acc r h; exact Or.inl h
  | cons d t ih =>
    intro acc r h
    rcases ih _ r h with h' | h'
    · cases acc with
      | none =>
        simp only [] at h'
        cases h'
        exact Or.inr (List.mem_cons_self _ _)
      | some b =>
        simp only [] at h'
        by_cases hc : (d - target).natAbs ≤ (b - target).natAbs
        · rw [if_pos hc] at h'
          cases h'
          exact Or.inr (List.mem_cons_self _ _)
        · rw [if_neg hc] at h'
          exact Or.inl h'
    · exact Or.inr (List.mem_cons_of_mem _ h')

theorem nearestDate_mem {idx : List Int} {target r : Int}
    (h : nearestDate idx target = some r) : r ∈ idx := by
  rcases nearest_foldl_mem target idx none r h with h' | h'
  · cases h'
  · exact h'

/-- Everything true of any record emitted by the drift per-event loop body. -/
theorem tradeStepDrift_spec {env : Env} {cfg : Cfg} {tkr : String} {Eraw : Ts} {tr : TradeRec}
    (h : tradeStepDrift env cfg tkr Eraw = some tr) :
    tr.ticker = tkr ∧
    tr.entryDate < tr.exitDate ∧
    tr.entryDate ∈ (pxSeries env tkr).map Prod.fst ∧
    tr.exitDate ∈ (pxSeries env tkr).map Prod.fst ∧
    tr.entryDate < listMaxI env.dates ∧
    (∃ v, tr.r3 = some v ∧ cfg.threshold ≤ v) := by
  simp only [tradeStepDrift] at h
  split at h
  · exact absurd h (by simp)
  · split at h
    · rename_i entryTs exitTs hentry hexit
      split at h
      · exact absurd h (by simp)
      · rename_i hguard
        push_neg at hguard
        split at h
        · exact absurd h (by simp)
        · rename_i r3m hr3
          split at h
          · rename_i hth
            cases h
            exact ⟨rfl, hguard.1, nearestDate_mem hentry, nearestDate_mem hexit,
              hguard.2, r3m, rfl, hth⟩
          · exact absurd h (by simp)
    · exact absurd h (by simp)

/-- Everything true of any record emitted by the baseline per-event loop body. -/
theorem tradeStepBase_spec {env : Env} {cfg : Cfg} {tkr : String} {Eraw : Ts} {tr : TradeRec}
    (h : tradeStepBase env cfg tkr Eraw = some tr) :
    tr.ticker = tkr ∧
    tr.entryDate < tr.exitDate ∧
    tr.entryDate ∈ (pxSeries env tkr).map Prod.fst ∧
    tr.exitDate ∈ (pxSeries env tkr).map Prod.fst ∧
    tr.entryDate < listMaxI env.dates := by
  simp only [tradeStepBase] at h
  split at h
  · exact absurd h (by simp)
  · split at h
    · rename_i entryTs exitTs hentry hexit
      split at h
      · exact absurd h (by simp)
      · rename_i hguard
        push_neg at hguard
        cases h
        exact ⟨rfl, hguard.1, nearestDate_mem hentry, nearestDate_mem hexit, hguard.2⟩
    · exact absurd h (by simp)

/-- Membership in the drift ledger comes from some ticker's per-event loop. -/
theorem mem_ledgerDrift {env : Env} {cfg : Cfg} {tr : TradeRec}
    (h : tr ∈ ledgerDrift env cfg) :
    ∃ tkr Eraw, tkr ∈ pyDedup cfg.tickers ∧
      Eraw ∈ getEarningsDates env tkr ⟨cfg.startDate, 0⟩ ⟨effectiveEnd cfg, 0⟩ ∧
      tradeStepDrift env cfg tkr Eraw = some tr := by
  rcases List.mem_flatMap.mp h with ⟨tkr, htkr, hmem⟩
  simp only [driftTradesFor] at hmem
  split at hmem
  · cases hmem
  · split at hmem
    · cases hmem
    · rcases List.mem_filterMap.mp hmem with ⟨Eraw, hE, hstep⟩
      exact ⟨tkr, Eraw, htkr, hE, hstep⟩

/-- Membership in the baseline ledger comes from some ticker's per-event loop. -/
theorem mem_ledgerBase {env : Env} {cfg : Cfg} {tr : TradeRec}
    (h : tr ∈ ledgerBase env cfg) :
    ∃ tkr Eraw, tkr ∈ pyDedup cfg.tickers ∧
      Eraw ∈ getEarningsDates env tkr ⟨cfg.startDate, 0⟩ ⟨effectiveEnd cfg, 0⟩ ∧
      tradeStepBase env cfg tkr Eraw = some tr := by
  rcases List.mem_flatMap.mp h with ⟨tkr, htkr, hmem⟩
  simp only [baseTradesFor] at hmem
  split at hmem
  · cases hmem
  · split at hmem
    · cases hmem
    · rcases List.mem_filterMap.mp hmem with ⟨Eraw, hE, hstep⟩
      exact ⟨tkr, Eraw, htkr, hE, hstep⟩

/-! ### Evaluation of the concrete run `envW`/`cfgW` -/

theorem envW_px : pxSeries envW "A" = [(0, 1), (91, 2), (366, 3)] := by decide

theorem envW_near91 : nearestDate [0, 91, 366] 91 = some 91 := by decide

theorem envW_near366 : nearestDate [0, 91, 366] 366 = some 366 := by decide

theorem envW_lk91 : List.lookup (91 : Int) [((0 : Int), (1 : ℚ)), (91, 2), (366, 3)] = some 2 := by decide

theorem envW_lk366 : List.lookup (366 : Int) [((0 : Int), (1 : ℚ)), (91, 2), (366, 3)] = some 3 := by decide

theorem envW_step : tradeStepDrift envW cfgW "A" ⟨0, 0⟩ = some tradeW := by
  simp only [tradeStepDrift, envW_px, tsNormalize]
  norm_num [envW, cfgW, effectiveEnd, listMinI, listMaxI, envW_near91, envW_near366,
    pctReturn, lastAtOrBefore, envW_lk91, envW_lk366, tradeW]

theorem envW_trades : sortedTradesDrift envW cfgW = [tradeW] := by
  have h2 : getEarningsDates envW "A" ⟨0, 0⟩ ⟨395, 0⟩ = [⟨0, 0⟩] := by decide
  have hded : pyDedup cfgW.tickers = ["A"] := by decide
  have hfor : driftTradesFor envW cfgW "A" = [tradeW] := by
    have hmin : cfgW.minPriceHistoryDays = 300 := rfl
    have hstart : cfgW.startDate = 0 := rfl
    have heff : effectiveEnd cfgW = 395 := by decide
    simp only [driftTradesFor, envW_px]
    norm_num [hmin, hstart, heff, listMinI, listMaxI, h2, envW_step, List.filterMap_cons]
  have h1 : ledgerDrift envW cfgW = [tradeW] := by
    simp [ledgerDrift, hded, hfor]
  simp [sortedTradesDrift, h1, sortTrades]

/-- C1: every trade record appended by `run_backtest` or
`run_backtest_baseline` has its entry date strictly before its exit date,
both dates are members of that ticker's price-date index, and the exit
date is at most the last available price date of that ticker. -/
theorem c1_trade_ledger_date_invariant (env : Env) (cfg : Cfg) (tr : TradeRec)
    (h : tr ∈ (runBacktest env cfg).trades ∨ tr ∈ (runBacktestBaseline env cfg).trades) :
    tr.entryDate < tr.exitDate ∧
    tr.entryDate ∈ (pxSeries env tr.ticker).map Prod.fst ∧
    tr.exitDate ∈ (pxSeries env tr.ticker).map Prod.fst ∧
    tr.exitDate ≤ listMaxI ((pxSeries env tr.ticker).map Prod.fst) := by
  have h' : tr ∈ ledgerDrift env cfg ∨ tr ∈ ledgerBase env cfg := by
    rcases h with h | h
    · exact Or.inl ((List.mem_insertionSort keyLE).mp h)
    · exact Or.inr ((List.mem_insertionSort keyLE).mp h)
  rcases h' with h' | h'
  · rcases mem_ledgerDrift h' with ⟨tkr, Eraw, _, _, hstep⟩
    rcases tradeStepDrift_spec hstep with ⟨htick, hlt, hen, hex, _, _⟩
    subst htick
    exact ⟨hlt, hen, hex, mem_le_listMaxI hex⟩
  · rcases mem_ledgerBase h' with ⟨tkr, Eraw, _, _, hstep⟩
    rcases tradeStepBase_spec hstep with ⟨htick, hlt, hen, hex, _⟩
    subst htick
    exact ⟨hlt, hen, hex, mem_le_listMaxI hex⟩

/-- C1 witness: the concrete run `envW`/`cfgW` emits `tradeW`, and the
date invariant holds there. -/
theorem c1_trade_ledger_date_invariant_witness :
    (tradeW ∈ (runBacktest envW cfgW).trades ∨ tradeW ∈ (runBacktestBaseline envW cfgW).trades) ∧
    (tradeW.entryDate < tradeW.exitDate ∧
      tradeW.entryDate ∈ (pxSeries envW tradeW.ticker).map Prod.fst ∧
      tradeW.exitDate ∈ (pxSeries envW tradeW.ticker).map Prod.fst ∧
      tradeW.exitDate ≤ listMaxI ((pxSeries envW tradeW.ticker).map Prod.fst)) := by
  have hmem : tradeW ∈ (runBacktest envW cfgW).trades := by
    show tradeW ∈ sortedTradesDrift envW cfgW
    rw [envW_trades]
    exact List.mem_singleton.mpr rfl
  exact ⟨Or.inl hmem, c1_trade_ledger_date_invariant envW cfgW tradeW (Or.inl hmem)⟩

/-- The drift per-event body is the baseline body filtered by the
threshold test (`np.isnan` skip plus `r3m >= threshold`). -/
theorem step_drift_eq_base (env : Env) (cfg : Cfg) (tkr : String) (Eraw : Ts) :
    tradeStepDrift env cfg tkr Eraw =
      (tradeStepBase env cfg tkr Eraw).bind
        (fun r => if meetsThreshold cfg.threshold r then some r else none) := by
  simp only [tradeStepDrift, tradeStepBase]
  split
  · rfl
  · split
    · rename_i entryTs exitTs hentry hexit
      split
      · rfl
      · cases hpr : pctReturn (pxSeries env tkr) (tsNormalize Eraw) entryTs with
        | none => simp [hpr, meetsThreshold]
        | some v =>
          simp only [hpr, Option.bind_some, meetsThreshold]
          by_cases hth : cfg.threshold ≤ v
          · simp [hth]
          · simp [hth]
    · rfl

/-- The drift per-ticker loop is the baseline per-ticker loop filtered by
the threshold test. -/
theorem driftTradesFor_eq_filter (env : Env) (cfg : Cfg) (tkr : String) :
    driftTradesFor env cfg tkr =
      (baseTradesFor env cfg tkr).filter (meetsThreshold cfg.threshold) := by
  simp only [driftTradesFor, baseTradesFor]
  split
  · simp
  · split
    · simp
    · rw [List.filter_filterMap]
      apply List.filterMap_congr
      intro a _
      rw [step_drift_eq_base]
      cases tradeStepBase env cfg tkr a <;> simp [Option.filter]

/-- The drift trade ledger (pre-sort) is the baseline ledger filtered by
the threshold test. -/
theorem ledgerDrift_eq_filter (env : Env) (cfg : Cfg) :
    ledgerDrift env cfg = (ledgerBase env cfg).filter (meetsThreshold cfg.threshold) := by
  simp only [ledgerDrift, ledgerBase, List.filter_flatMap]
  exact List.flatMap_congr fun tkr _ => driftTradesFor_eq_filter env cfg tkr

instance : IsTotal TradeRec keyLE where
  total a b := by
    rcases lt_trichotomy a.entryDate b.entryDate with h | h | h
    · exact Or.inl (Or.inl h)
    · rcases le_total a.ticker b.ticker with h' | h'
      · exact Or.inl (Or.inr ⟨h, h'⟩)
      · exact Or.inr (Or.inr ⟨h.symm, h'⟩)
    · exact Or.inr (Or.inl h)

instance : IsTrans TradeRec keyLE where
  trans a b c hab hbc := by
    rcases hab with h1 | ⟨h1, h1'⟩
    · rcases hbc with h2 | ⟨h2, _⟩
      · exact Or.inl (lt_trans h1 h2)
      · exact Or.inl (h2 ▸ h1)
    · rcases hbc with h2 | ⟨h2, h2'⟩
      · exact Or.inl (h1 ▸ h2)
      · exact Or.inr ⟨h1.trans h2, h1'.trans h2'⟩

/-- Inserting an element that is `r`-below everything in `M` puts it at
the head. -/
theorem orderedInsert_of_forall {α : Type} {r : α → α → Prop} [DecidableRel r] {a : α}
    {M : List α} (h : ∀ c ∈ M, r a c) : M.orderedInsert r a = a :: M := by
  cases M with
  | nil => rfl
  | cons c M' =>
    simp only [List.orderedInsert]
    rw [if_pos (h c (List.mem_cons_self c M'))]

/-- `filter` commutes with `orderedInsert` into a sorted list. -/
theorem filter_orderedInsert {α : Type} {r : α → α → Prop} [DecidableRel r]
    [IsTotal α r] [IsTrans α r] (p : α → Bool) (a : α) :
    ∀ L : List α, L.Sorted r →
      (L.orderedInsert r a).filter p =
        if p a then (L.filter p).orderedInsert r a else L.filter p := by
  intro L
  induction L with
  | nil =>
    intro _
    by_cases hpa : p a <;> simp [hpa, List.orderedInsert]
  | cons b L ih =>
    intro hsort
    by_cases hab : r a b
    · simp only [List.orderedInsert, if_pos hab]
      by_cases hpa : p a
      · rw [if_pos hpa]
        have hall : ∀ c ∈ (b :: L).filter p, r a c := by
          intro c hc
          have hc' : c ∈ b :: L := List.mem_of_mem_filter hc
          rcases List.mem_cons.mp hc' with h | h
          · exact h ▸ hab
          · exact Trans.trans hab (List.rel_of_sorted_cons hsort c h)
        rw [orderedInsert_of_forall hall, List.filter_cons, if_pos hpa]
      · rw [if_neg hpa, List.filter_cons, if_neg hpa]
    · have hba : r b a := (total_of r a b).resolve_left hab
      simp only [List.orderedInsert, if_neg hab]
      have ihs := ih hsort.of_cons
      by_cases hpa : p a
      · rw [if_pos hpa] at ihs ⊢
        by_cases hpb : p b
        · rw [List.filter_cons, if_pos hpb, List.filter_cons, if_pos hpb, ihs]
          simp only [List.orderedInsert, if_neg hab]
        · rw [List.filter_cons, if_neg hpb, List.filter_cons, if_neg hpb, ihs]
      · rw [if_neg hpa] at ihs ⊢
        by_cases hpb : p b
        · rw [List.filter_cons, if_pos hpb, List.filter_cons, if_pos hpb, ihs]
        · rw [List.filter_cons, if_neg hpb, List.filter_cons, if_neg hpb, ihs]

/-- `filter` commutes with `insertionSort`. -/
theorem filter_insertionSort {α : Type} (r : α → α → Prop) [DecidableRel r]
    [IsTotal α r] [IsTrans α r] (p : α → Bool) (l : List α) :
    (List.insertionSort r l).filter p = List.insertionSort r (l.filter p) := by
  induction l with
  | nil => rfl
  | cons a l ih =>
    simp only [List.insertionSort]
    rw [filter_orderedInsert p a _ (List.sorted_insertionSort r l), ih, List.filter_cons]
    by_cases hpa : p a
    · rw [if_pos hpa, if_pos hpa]
      simp [List.insertionSort]
    · rw [if_neg hpa, if_neg hpa]

/-- The sorted drift ledger is the sorted baseline ledger filtered by the
threshold test. -/
theorem sortedDrift_eq_filter_base (env : Env) (cfg : Cfg) :
    sortedTradesDrift env cfg =
      (sortedTradesBase env cfg).filter (meetsThreshold cfg.threshold) := by
  unfold sortedTradesDrift sortedTradesBase sortTrades
  rw [ledgerDrift_eq_filter, ← filter_insertionSort]

/-- C3: the baseline variant appends a trade for every earnings event that
passes the date guards (its per-event body succeeds with no threshold or
NaN test — `r_3m` is recorded but never examined); the drift variant's
finished Trade Ledger is exactly the baseline ledger restricted to trades
whose recorded R3 passes `r3 >= threshold`; and both variants build the
same benchmark equity curve from the same canonical index. -/
theorem c3_baseline_unconditional_and_refines (env : Env) (cfg : Cfg) :
    (runBacktest env cfg).trades =
      ((runBacktestBaseline env cfg).trades).filter (meetsThreshold cfg.threshold) ∧
    (∀ tkr, tkr ∈ pyDedup cfg.tickers →
      (pxSeries env tkr).isEmpty = false →
      ¬(listMaxI ((pxSeries env tkr).map Prod.fst) -
          listMinI ((pxSeries env tkr).map Prod.fst) < cfg.minPriceHistoryDays) →
      ∀ Eraw ∈ getEarningsDates env tkr ⟨cfg.startDate, 0⟩ ⟨effectiveEnd cfg, 0⟩,
        ∀ tr, tradeStepBase env cfg tkr Eraw = some tr →
          tr ∈ (runBacktestBaseline env cfg).trades) ∧
    (runBacktest env cfg).benchEquity = (runBacktestBaseline env cfg).benchEquity := by
  refine ⟨sortedDrift_eq_filter_base env cfg, ?_, rfl⟩
  intro tkr htkr hne hspan Eraw hE tr hstep
  show tr ∈ sortedTradesBase env cfg
  rw [sortedTradesBase, sortTrades, List.mem_insertionSort]
  apply List.mem_flatMap.mpr
  refine ⟨tkr, htkr, ?_⟩
  rw [baseTradesFor]
  simp only [hne, Bool.false_eq_true, if_false, if_neg hspan]
  exact List.mem_filterMap.mpr ⟨Eraw, hE, hstep⟩

theorem envW_stepBase : tradeStepBase envW cfgW "A" ⟨0, 0⟩ = some tradeW := by
  simp only [tradeStepBase, envW_px, tsNormalize]
  norm_num [envW, cfgW, effectiveEnd, listMinI, listMaxI, envW_near91, envW_near366,
    pctReturn, lastAtOrBefore, envW_lk91, envW_lk366, tradeW]

/-- The baseline per-event body never reads the threshold. -/
theorem tradeStepBase_threshold_irrel (env : Env) (cfg : Cfg) (q : ℚ) (tkr : String) (Eraw : Ts) :
    tradeStepBase env { cfg with threshold := q } tkr Eraw = tradeStepBase env cfg tkr Eraw := rfl

/-- C3 witness: at the concrete run `envW`/`cfgW`, the drift ledger is the
filtered baseline ledger, and the guard-passing event ⟨day 0, midnight⟩
puts its trade in the baseline ledger (by the theorem, with every
hypothesis discharged concretely). -/
theorem c3_baseline_unconditional_and_refines_witness :
    (runBacktest envW cfgW).trades =
      ((runBacktestBaseline envW cfgW).trades).filter (meetsThreshold cfgW.threshold) ∧
    tradeW ∈ (runBacktestBaseline envW cfgW).trades := by
  refine ⟨(c3_baseline_unconditional_and_refines envW cfgW).1, ?_⟩
  apply (c3_baseline_unconditional_and_refines envW cfgW).2.1 "A" (by decide) (by decide)
    (by decide) ⟨0, 0⟩ (by decide) tradeW envW_stepBase

/-- C4: for an earnings event whose baseline record carries signal return
`v`, the drift variant's per-event body emits exactly that record when `v`
equals the threshold (the comparison is inclusive), and emits nothing when
`v` is below the threshold — in which case that record is also absent from
the whole drift Trade Ledger. -/
theorem c4_threshold_boundary (env : Env) (cfg : Cfg) (tkr : String) (Eraw : Ts)
    (tr : TradeRec) (v : ℚ)
    (hstep : tradeStepBase env cfg tkr Eraw = some tr) (hr3 : tr.r3 = some v) :
    (v = cfg.threshold → tradeStepDrift env cfg tkr Eraw = some tr) ∧
    (v < cfg.threshold →
      tradeStepDrift env cfg tkr Eraw = none ∧ tr ∉ (runBacktest env cfg).trades) := by
  constructor
  · intro hv
    rw [step_drift_eq_base, hstep]
    simp [meetsThreshold, hr3, hv]
  · intro hv
    constructor
    · rw [step_drift_eq_base, hstep]
      simp [meetsThreshold, hr3, not_le.mpr hv]
    · intro hmem
      have h1 : tr ∈ (sortedTradesBase env cfg).filter (meetsThreshold cfg.threshold) := by
        rw [← sortedDrift_eq_filter_base]
        exact hmem
      have h2 := (List.mem_filter.mp h1).2
      rw [meetsThreshold, hr3] at h2
      exact absurd (of_decide_eq_true h2) (not_le.mpr hv)

/-- C4 witness: with the threshold raised to the concrete signal return 1
(`cfgW1`) the event still produces its trade; with the threshold at 2
(`cfgW2`, strictly above the signal return) it produces nothing and the
record is absent from the drift ledger. -/
theorem c4_threshold_boundary_witness :
    tradeStepDrift envW cfgW1 "A" ⟨0, 0⟩ = some tradeW ∧
    (tradeStepDrift envW cfgW2 "A" ⟨0, 0⟩ = none ∧
      tradeW ∉ (runBacktest envW cfgW2).trades) := by
  have hb1 : tradeStepBase envW cfgW1 "A" ⟨0, 0⟩ = some tradeW := by
    rw [cfgW1, tradeStepBase_threshold_irrel]
    exact envW_stepBase
  have hb2 : tradeStepBase envW cfgW2 "A" ⟨0, 0⟩ = some tradeW := by
    rw [cfgW2, tradeStepBase_threshold_irrel]
    exact envW_stepBase
  constructor
  · exact (c4_threshold_boundary envW cfgW1 "A" ⟨0, 0⟩ tradeW 1 hb1 rfl).1 rfl
  · exact (c4_threshold_boundary envW cfgW2 "A" ⟨0, 0⟩ tradeW 1 hb2 rfl).2 (by norm_num [cfgW2, cfgW])

theorem pctChangeFill0Aux_keys (prev : Int × Option ℚ) (l : List (Int × Option ℚ)) :
    (pctChangeFill0Aux prev l).map Prod.fst = l.map Prod.fst := by
  induction l generalizing prev with
  | nil => rfl
  | cons cur t ih => simp [pctChangeFill0Aux, ih]

theorem pctChangeFill0_keys (l : List (Int × Option ℚ)) :
    (pctChangeFill0 l).map Prod.fst = l.map Prod.fst := by
  cases l with
  | nil => rfl
  | cons x t => simp [pctChangeFill0, pctChangeFill0Aux_keys]

theorem lookup_isSome_iff_mem_keys {β : Type} {l : List (Int × β)} {d : Int} :
    (l.lookup d).isSome ↔ d ∈ l.map Prod.fst := by
  rw [List.lookup_isSome_iff]
  simp

/-- A trade's position series has a row at `d` (for `d` in the union price
index) exactly when the trade is open at `d`. -/
theorem seg_lookup_isSome {env : Env} {t : String} {a b d : Int} (hd : d ∈ env.dates) :
    ((segOf env t a b).lookup d).isSome ↔ (a ≤ d ∧ d ≤ b) := by
  rw [lookup_isSome_iff_mem_keys]
  unfold segOf
  rw [pctChangeFill0_keys]
  simp only [List.map_map]
  constructor
  · intro h
    rcases List.mem_map.mp h with ⟨d', hd', hfst⟩
    have : d' = d := by simpa using hfst
    subst this
    have := List.of_mem_filter hd'
    simpa using this
  · intro ⟨h1, h2⟩
    apply List.mem_map.mpr
    refine ⟨d, List.mem_filter.mpr ⟨hd, by simp [h1, h2]⟩, rfl⟩

/-- `pos_df.mean(axis=1)` only sees the trades whose position series has a
row at `d`: restricting to the open trades first changes nothing. -/
theorem openVals_eq_filter (env : Env) (trades : List TradeRec) (d : Int)
    (hd : d ∈ env.dates) :
    openVals env trades d =
      (trades.filter
        (fun tr => decide (tr.entryDate ≤ d) && decide (d ≤ tr.exitDate))).filterMap
        (fun tr => (segOf env tr.ticker tr.entryDate tr.exitDate).lookup d) := by
  induction trades with
  | nil => rfl
  | cons tr t ih =>
    rw [openVals, List.filterMap_cons, List.filter_cons]
    by_cases hopen : tr.entryDate ≤ d ∧ d ≤ tr.exitDate
    · rw [if_pos (by simp [hopen.1, hopen.2])]
      rw [List.filterMap_cons]
      cases hlk : (segOf env tr.ticker tr.entryDate tr.exitDate).lookup d with
      | none =>
        exfalso
        have hs := (@seg_lookup_isSome env tr.ticker tr.entryDate tr.exitDate d hd).mpr hopen
        rw [hlk] at hs
        cases hs
      | some v =>
        rw [openVals] at ih
        rw [ih]
    · rw [if_neg (by simpa using hopen)]
      cases hlk : (segOf env tr.ticker tr.entryDate tr.exitDate).lookup d with
      | none =>
        rw [openVals] at ih
        rw [ih]
      | some v =>
        exfalso
        have hs : ((segOf env tr.ticker tr.entryDate tr.exitDate).lookup d).isSome := by
          rw [hlk]; rfl
        exact hopen ((@seg_lookup_isSome env tr.ticker tr.entryDate tr.exitDate d hd).mp hs)

/-- C2: on any day of the canonical index with exactly one open trade, the
portfolio daily return is that trade's position percent-change for the
day; on a day with no open trades it is exactly 0. -/
theorem c2_equal_weight_invariant (env : Env) (cfg : Cfg) (d : Int)
    (hd : d ∈ dailyIndexOf env cfg) :
    (∀ tr : TradeRec,
      ((runBacktest env cfg).trades).filter
          (fun tr' => decide (tr'.entryDate ≤ d) && decide (d ≤ tr'.exitDate)) = [tr] →
      dailyRet env ((runBacktest env cfg).trades) d =
        ((segOf env tr.ticker tr.entryDate tr.exitDate).lookup d).getD 0) ∧
    (((runBacktest env cfg).trades).filter
          (fun tr' => decide (tr'.entryDate ≤ d) && decide (d ≤ tr'.exitDate)) = [] →
      dailyRet env ((runBacktest env cfg).trades) d = 0) := by
  have hdd : d ∈ env.dates := List.mem_of_mem_filter hd
  constructor
  · intro tr hone
    rw [dailyRet, openVals_eq_filter env _ d hdd, hone]
    have hsome : ((segOf env tr.ticker tr.entryDate tr.exitDate).lookup d).isSome := by
      apply (seg_lookup_isSome hdd).mpr
      have : tr ∈ List.filter (fun tr' => decide (tr'.entryDate ≤ d) && decide (d ≤ tr'.exitDate))
          ((runBacktest env cfg).trades) := by
        rw [hone]; exact List.mem_singleton.mpr rfl
      have := List.of_mem_filter this
      simpa using this
    rcases Option.isSome_iff_exists.mp hsome with ⟨v, hv⟩
    rw [List.filterMap_cons, hv]
    simp
  · intro hnone
    rw [dailyRet, openVals_eq_filter env _ d hdd, hnone]
    rfl

/-- C2 witness: in the concrete run, day 366 has exactly the one open
trade `tradeW` and the portfolio return is that trade's percent change;
day 0 has no open trade and the portfolio return is 0. -/
theorem c2_equal_weight_invariant_witness :
    dailyRet envW ((runBacktest envW cfgW).trades) 366 =
      ((segOf envW tradeW.ticker tradeW.entryDate tradeW.exitDate).lookup 366).getD 0 ∧
    dailyRet envW ((runBacktest envW cfgW).trades) 0 = 0 := by
  have htr : (runBacktest envW cfgW).trades = [tradeW] := envW_trades
  constructor
  · apply (c2_equal_weight_invariant envW cfgW 366 (by decide)).1 tradeW
    rw [htr]
    norm_num [tradeW]
  · apply (c2_equal_weight_invariant envW cfgW 0 (by decide)).2
    rw [htr]
    norm_num [tradeW]

theorem getLastD_map_one {α : Type} (l : List α) (h : l ≠ []) :
    (l.map (fun _ => (1 : ℚ))).getLastD 0 = 1 := by
  induction l with
  | nil => exact absurd rfl h
  | cons a t ih =>
    cases t with
    | nil => rfl
    | cons b t' => simpa using ih (by simp)

theorem pctChangeDrop_ones {l : List ℚ} (h : ∀ x ∈ l, x = 1) :
    ∀ x ∈ pctChangeDrop l, x = 0 := by
  induction l with
  | nil => intro x hx; cases hx
  | cons a t ih =>
    cases t with
    | nil => intro x hx; cases hx
    | cons b t' =>
      intro x hx
      rw [pctChangeDrop] at hx
      rcases List.mem_cons.mp hx with hx | hx
      · have ha : a = 1 := h a (by simp)
        have hb : b = 1 := h b (by simp)
        rw [hx, ha, hb]
        norm_num
      · exact ih (fun y hy => h y (List.mem_cons_of_mem a hy)) x hx

theorem varQ_zeros {l : List ℚ} (h : ∀ x ∈ l, x = 0) : varQ l = 0 := by
  have hsum : l.sum = 0 := List.sum_eq_zero h
  have hmean : meanQ l = 0 := by rw [meanQ, hsum, zero_div]
  rw [varQ]
  have : (l.map (fun x => (x - meanQ l) ^ 2)).sum = 0 := by
    apply List.sum_eq_zero
    intro y hy
    rcases List.mem_map.mp hy with ⟨x, hx, hxy⟩
    rw [← hxy, h x hx, hmean]
    norm_num
  rw [this, zero_div]

theorem drawdownsAux_ones : ∀ l : List ℚ, (∀ x ∈ l, x = 1) → drawdownsAux 1 l = l.map (fun _ => 0) := by
  intro l
  induction l with
  | nil => intro _; rfl
  | cons a t ih =>
    intro h
    have ha : a = 1 := h a (by simp)
    subst ha
    rw [drawdownsAux, max_self]
    rw [ih (fun y hy => h y (List.mem_cons_of_mem _ hy))]
    norm_num

theorem listMinQ_zeros {l : List ℚ} (h : ∀ x ∈ l, x = 0) (hne : l ≠ []) : listMinQ l = 0 := by
  cases l with
  | nil => exact absurd rfl hne
  | cons a t =>
    have ha : a = 0 := h a (by simp)
    subst ha
    rw [listMinQ]
    induction t with
    | nil => rfl
    | cons b t' ih =>
      have hb : b = 0 := h b (by simp)
      subst hb
      rw [List.foldl_cons, min_self]
      apply ih ?_ (by simp)
      intro x hx
      apply h x
      rcases List.mem_cons.mp hx with h1 | h1
      · simp [h1]
      · simp [h1]

/-- C5: with an empty Trade Ledger (for instance an empty ticker list) and
a canonical index of at least two dates, the equity curve is flat 1.0, the
trade count is 0, win rate / mean / median holding return are NaN, the
CAGR of the flat curve is exactly 0, the Sharpe ratio is NaN, and the max
drawdown is exactly 0. -/
theorem c5_empty_ledger_flat_curve (env : Env) (cfg : Cfg)
    (hempty : (runBacktest env cfg).trades = [])
    (hlen : 2 ≤ (dailyIndexOf env cfg).length) :
    (∀ v ∈ (runBacktest env cfg).equity, v = 1) ∧
    (runBacktest env cfg).stats.trades = 0 ∧
    (runBacktest env cfg).stats.winRate = none ∧
    (runBacktest env cfg).stats.avgTradeReturn = none ∧
    (runBacktest env cfg).stats.medianTradeReturn = none ∧
    (runBacktest env cfg).stats.equityCagr = some 0 ∧
    (runBacktest env cfg).stats.sharpe = none ∧
    (runBacktest env cfg).stats.maxDrawdown = some 0 := by
  have htr : sortedTradesDrift env cfg = [] := hempty
  have hidx : dailyIndexOf env cfg ≠ [] := by
    intro hc
    rw [hc] at hlen
    exact absurd hlen (by norm_num)
  have heq : (runBacktest env cfg).equity = (dailyIndexOf env cfg).map (fun _ => (1 : ℚ)) := by
    show equityValues env cfg (sortedTradesDrift env cfg) = _
    rw [htr, equityValues]
    rfl
  have hones : ∀ v ∈ (runBacktest env cfg).equity, v = (1 : ℚ) := by
    rw [heq]
    intro v hv
    rcases List.mem_map.mp hv with ⟨_, _, hv'⟩
    exact hv'.symm
  have hstats : (runBacktest env cfg).stats =
      statsOf (sortedTradesDrift env cfg) ((runBacktest env cfg).equity) (benchEquityValues env cfg) := rfl
  refine ⟨hones, ?_, ?_, ?_, ?_, ?_, ?_, ?_⟩
  · rw [hstats, statsOf, htr]; rfl
  · rw [hstats, statsOf, htr]; rfl
  · rw [hstats, statsOf, htr]; rfl
  · rw [hstats, statsOf, htr]; rfl
  · rw [hstats]
    show cagrOf ((runBacktest env cfg).equity) = some 0
    rw [heq, cagrOf, if_pos (by simpa using hlen)]
    rw [getLastD_map_one _ hidx]
    norm_num
  · rw [hstats]
    show sharpeOf (pctChangeDrop ((runBacktest env cfg).equity)) = none
    have hz : ∀ x ∈ pctChangeDrop ((runBacktest env cfg).equity), x = 0 :=
      pctChangeDrop_ones hones
    rw [sharpeOf, if_neg]
    rw [varQ_zeros hz]
    norm_num
  · rw [hstats]
    show maxDrawdownOf ((runBacktest env cfg).equity) = some 0
    rw [heq]
    cases hc : dailyIndexOf env cfg with
    | nil => exact absurd hc hidx
    | cons d idx' =>
      simp only [List.map_cons, maxDrawdownOf]
      have hdd : drawdownsAux 1 ((1 : ℚ) :: (idx'.map fun _ => (1 : ℚ))) =
          ((1 : ℚ) :: (idx'.map fun _ => (1 : ℚ))).map (fun _ => 0) := by
        apply drawdownsAux_ones
        intro x hx
        rcases List.mem_cons.mp hx with h1 | h1
        · exact h1
        · rcases List.mem_map.mp h1 with ⟨_, _, h2⟩
          exact h2.symm
      rw [hdd]
      rw [listMinQ_zeros ?_ (by simp)]
      intro x hx
      rcases List.mem_map.mp hx with ⟨_, _, h2⟩
      exact h2.symm

/-- C5 witness: the concrete data `envW` with an empty ticker list. -/
theorem c5_empty_ledger_flat_curve_witness :
    (runBacktest envW cfgE).trades = [] ∧
    2 ≤ (dailyIndexOf envW cfgE).length ∧
    (∀ v ∈ (runBacktest envW cfgE).equity, v = 1) ∧
    (runBacktest envW cfgE).stats.equityCagr = some 0 ∧
    (runBacktest envW cfgE).stats.sharpe = none ∧
    (runBacktest envW cfgE).stats.maxDrawdown = some 0 := by
  have h1 : (runBacktest envW cfgE).trades = [] := by decide
  have h2 : 2 ≤ (dailyIndexOf envW cfgE).length := by decide
  have h := c5_empty_ledger_flat_curve envW cfgE h1 h2
  exact ⟨h1, h2, h.1, h.2.2.2.2.2.1, h.2.2.2.2.2.2.1, h.2.2.2.2.2.2.2⟩

instance : IsTotal Ts leTs where
  total a b := by
    rcases lt_trichotomy a.day b.day with h | h | h
    · exact Or.inl (Or.inl h)
    · rcases le_total a.minute b.minute with h' | h'
      · exact Or.inl (Or.inr ⟨h, h'⟩)
      · exact Or.inr (Or.inr ⟨h.symm, h'⟩)
    · exact Or.inr (Or.inl h)

instance : IsTrans Ts leTs where
  trans a b c hab hbc := by
    rcases hab with h1 | ⟨h1, h1'⟩
    · rcases hbc with h2 | ⟨h2, _⟩
      · exact Or.inl (lt_trans h1 h2)
      · exact Or.inl (h2 ▸ h1)
    · rcases hbc with h2 | ⟨h2, h2'⟩
      · exact Or.inl (h1 ▸ h2)
      · exact Or.inr ⟨h1.trans h2, h1'.trans h2'⟩

/-- The record both duplicate earnings timestamps of `envC6` produce. -/
def tradeC6 : TradeRec where
  ticker := "A"
  earnDate := 0
  entryDate := 91
  exitDate := 366
  r3 := some 0
  rHold := 0

theorem envC6_px : pxSeries envC6 "A" = [(0, 1), (91, 1), (366, 1)] := by decide

theorem envC6_near91 : nearestDate [0, 91, 366] 91 = some 91 := by decide

theorem envC6_near366 : nearestDate [0, 91, 366] 366 = some 366 := by decide

theorem envC6_lk91 : List.lookup (91 : Int) [((0 : Int), (1 : ℚ)), (91, 1), (366, 1)] = some 1 := by decide

theorem envC6_lk366 : List.lookup (366 : Int) [((0 : Int), (1 : ℚ)), (91, 1), (366, 1)] = some 1 := by decide

theorem envC6_step (m : Nat) : tradeStepDrift envC6 cfgW "A" ⟨0, m⟩ = some tradeC6 := by
  simp only [tradeStepDrift, envC6_px, tsNormalize]
  norm_num [envC6, cfgW, effectiveEnd, listMinI, listMaxI, envC6_near91, envC6_near366,
    pctReturn, lastAtOrBefore, envC6_lk91, envC6_lk366, tradeC6]

theorem envC6_trades : sortedTradesDrift envC6 cfgW = [tradeC6, tradeC6] := by
  have h2 : getEarningsDates envC6 "A" ⟨0, 0⟩ ⟨395, 0⟩ = [⟨0, 0⟩, ⟨0, 960⟩] := by decide
  have hded : pyDedup cfgW.tickers = ["A"] := by decide
  have hfor : driftTradesFor envC6 cfgW "A" = [tradeC6, tradeC6] := by
    have hmin : cfgW.minPriceHistoryDays = 300 := rfl
    have hstart : cfgW.startDate = 0 := rfl
    have heff : effectiveEnd cfgW = 395 := by decide
    simp only [driftTradesFor, envC6_px]
    norm_num [hmin, hstart, heff, listMinI, listMaxI, h2, envC6_step, List.filterMap_cons]
  have h1 : ledgerDrift envC6 cfgW = [tradeC6, tradeC6] := by
    simp [ledgerDrift, hded, hfor]
  have hsorted : sortTrades [tradeC6, tradeC6] = [tradeC6, tradeC6] := by
    simp [sortTrades, List.insertionSort, List.orderedInsert, keyLE]
  rw [sortedTradesDrift, h1, hsorted]

/-- C6 counterexample: the earnings-date sequence is not de-duplicated.
With two provider timestamps on the same calendar day (midnight and
16:00), `run_backtest` appends two trade records of the same ticker with
the same earnings date. -/
theorem c6_counterexample_duplicate_earnings :
    ((sortedTradesDrift envC6 cfgW).map (fun r => (r.ticker, r.earnDate))) =
      [("A", 0), ("A", 0)] ∧
    ¬ List.Pairwise (fun a b : TradeRec => a.ticker = b.ticker → a.earnDate ≠ b.earnDate)
      (sortedTradesDrift envC6 cfgW) := by
  rw [envC6_trades]
  constructor
  · rfl
  · intro hp
    have := (List.pairwise_cons.mp hp).1 tradeC6 (by simp)
    exact this rfl rfl

/-- C6 (amended): the per-ticker earnings sequence the engine consumes is
restricted to `[start_date, end_date - calendar_pad_days]` and sorted
ascending, and the normalized (midnight) days are non-decreasing; but
duplicates are not removed, so two trade records of one ticker may share
an earnings date. -/
theorem c6_earnings_sorted_and_filtered (env : Env) (tkr : String) (startTs endTs : Ts) :
    (getEarningsDates env tkr startTs endTs).Sorted leTs ∧
    ((getEarningsDates env tkr startTs endTs).map tsNormalize).Sorted (· ≤ ·) ∧
    ∀ ts ∈ getEarningsDates env tkr startTs endTs, leTs startTs ts ∧ leTs ts endTs := by
  have hsorted : (getEarningsDates env tkr startTs endTs).Sorted leTs := by
    rw [getEarningsDates]
    cases env.earnRaw tkr with
    | none => exact List.sorted_nil
    | some df =>
      by_cases hdf : df = []
      · simp [hdf]
      · simp only [if_neg hdf]
        exact List.sorted_insertionSort leTs _
  refine ⟨hsorted, ?_, ?_⟩
  · rw [List.Sorted, List.pairwise_map]
    apply List.Pairwise.imp ?_ hsorted
    intro a b hab
    rcases hab with h | ⟨h, _⟩
    · exact le_of_lt h
    · exact le_of_eq h
  · intro ts hts
    rw [getEarningsDates] at hts
    cases hraw : env.earnRaw tkr with
    | none => simp [hraw] at hts
    | some df =>
      simp only [hraw] at hts
      by_cases hdf : df = []
      · simp [hdf] at hts
      · rw [if_neg hdf, List.mem_insertionSort] at hts
        have := List.of_mem_filter hts
        simp only [Bool.and_eq_true, decide_eq_true_eq] at this
        exact this

/-- C6 amended-claim witness at a concrete fetch. -/
theorem c6_earnings_sorted_and_filtered_witness :
    (⟨0, 0⟩ : Ts) ∈ getEarningsDates envC6 "A" ⟨0, 0⟩ ⟨395, 0⟩ ∧
    (getEarningsDates envC6 "A" ⟨0, 0⟩ ⟨395, 0⟩).Sorted leTs ∧
    (leTs ⟨0, 0⟩ ⟨0, 0⟩ ∧ leTs ⟨0, 0⟩ ⟨395, 0⟩) := by
  have h := c6_earnings_sorted_and_filtered envC6 "A" ⟨0, 0⟩ ⟨395, 0⟩
  have hm : (⟨0, 0⟩ : Ts) ∈ getEarningsDates envC6 "A" ⟨0, 0⟩ ⟨395, 0⟩ := by decide
  exact ⟨hm, h.1, h.2.2 ⟨0, 0⟩ hm⟩

theorem pxSeries_earnRaw_irrel (env : Env) (f : String → Option (List Ts)) (t : String) :
    pxSeries { env with earnRaw := f } t = pxSeries env t := rfl

theorem tradeStepDrift_earnRaw_irrel (env : Env) (f : String → Option (List Ts))
    (cfg : Cfg) (t : String) (Eraw : Ts) :
    tradeStepDrift { env with earnRaw := f } cfg t Eraw = tradeStepDrift env cfg t Eraw := rfl

theorem getEarningsDates_congr (env : Env) (f : String → Option (List Ts)) (t : String)
    (startTs endTs : Ts) (h : f t = env.earnRaw t) :
    getEarningsDates { env with earnRaw := f } t startTs endTs =
      getEarningsDates env t startTs endTs := by
  rw [getEarningsDates, getEarningsDates]
  show (match f t with | none => _ | some df => _) = _
  rw [h]

/-- C7: data errors stay local.  (i) Changing one ticker's earnings fetch
does not change any other ticker's trades; (ii) a raised earnings fetch
(`none`) yields no trades for that ticker only; (iii) a ticker with an
all-NaN (empty after `dropna`) price column contributes no trades; (iv) an
event whose entry date cannot be mapped to the price index is skipped, and
(v) a skipped event removes only itself from the ticker's trade list.  In
the embedding every external failure is an `Option`, and `run_backtest`
is a total function: it returns a (possibly empty) result for every
environment and configuration. -/
theorem c7_error_locality (env : Env) (f : String → Option (List Ts)) (t0 : String) (cfg : Cfg)
    (hagree : ∀ t, t ≠ t0 → f t = env.earnRaw t) :
    (∀ t, t ≠ t0 →
      driftTradesFor { env with earnRaw := f } cfg t = driftTradesFor env cfg t) ∧
    (f t0 = none → driftTradesFor { env with earnRaw := f } cfg t0 = []) ∧
    (∀ t, (pxSeries env t).isEmpty = true → driftTradesFor env cfg t = []) ∧
    (∀ t Eraw,
      nearestDate ((pxSeries env t).map Prod.fst) (env.addMonths 3 (tsNormalize Eraw)) = none →
      tradeStepDrift env cfg t Eraw = none) ∧
    (∀ t (l1 l2 : List Ts) Eraw, tradeStepDrift env cfg t Eraw = none →
      (l1 ++ Eraw :: l2).filterMap (tradeStepDrift env cfg t) =
        (l1 ++ l2).filterMap (tradeStepDrift env cfg t)) := by
  refine ⟨?_, ?_, ?_, ?_, ?_⟩
  · intro t ht
    rw [driftTradesFor, driftTradesFor, pxSeries_earnRaw_irrel,
      getEarningsDates_congr env f t _ _ (hagree t ht)]
    rfl
  · intro h0
    rw [driftTradesFor, pxSeries_earnRaw_irrel]
    have hget : getEarningsDates { env with earnRaw := f } t0 ⟨cfg.startDate, 0⟩
        ⟨effectiveEnd cfg, 0⟩ = [] := by
      rw [getEarningsDates]
      show (match f t0 with | none => _ | some df => _) = _
      rw [h0]
    rw [hget]
    split
    · rfl
    · split
      · rfl
      · exact List.filterMap_nil _
  · intro t hpx
    rw [driftTradesFor, if_pos hpx]
  · intro t Eraw hnear
    rw [tradeStepDrift]
    show (if _ then none else _) = none
    split
    · rfl
    · rw [hnear]
  · intro t l1 l2 Eraw hstep
    rw [List.filterMap_append, List.filterMap_append, List.filterMap_cons, hstep]

/-- C7 witness: with every earnings fetch failing, ticker "A" yields no
trades, and ticker "B" (unchanged: its fetch already returned nothing) has
the same trades as before. -/
theorem c7_error_locality_witness :
    driftTradesFor { envW with earnRaw := fun _ => none } cfgW "A" = [] ∧
    driftTradesFor { envW with earnRaw := fun _ => none } cfgW "B" =
      driftTradesFor envW cfgW "B" := by
  have hagree : ∀ t, t ≠ "A" → (fun _ : String => (none : Option (List Ts))) t = envW.earnRaw t := by
    intro t ht
    simp [envW, ht]
  have h := c7_error_locality envW (fun _ => none) "A" cfgW hagree
  exact ⟨h.2.1 rfl, h.1 "B" (by decide)⟩

theorem mem_of_lookup_eq_some {β : Type} {l : List (Int × β)} {k : Int} {b : β}
    (h : l.lookup k = some b) : (k, b) ∈ l := by
  rcases List.lookup_eq_some_iff.mp h with ⟨l1, l2, hl, _⟩
  rw [hl]
  exact List.mem_append.mpr (Or.inr (List.mem_cons_self _ _))

theorem pctChangeFill0Aux_gt_neg_one (l : List (Int × Option ℚ)) :
    ∀ prev : Int × Option ℚ,
      (∀ p ∈ l, ∀ v, p.2 = some v → 0 < v) →
      (∀ v, prev.2 = some v → 0 < v) →
      ∀ pr ∈ pctChangeFill0Aux prev l, -1 < pr.2 := by
  induction l with
  | nil => intro prev _ _ pr hpr; cases hpr
  | cons cur t ih =>
    intro prev hl hprev pr hpr
    rw [pctChangeFill0Aux] at hpr
    rcases List.mem_cons.mp hpr with hpr | hpr
    · subst hpr
      cases hp : prev.2 with
      | none => simp [hp]
      | some p =>
        cases hc : cur.2 with
        | none => simp [hp, hc]
        | some c =>
          simp only [hp, hc]
          have hpp : 0 < p := hprev p hp
          have hcc : 0 < c := hl cur (by simp) c hc
          have : 0 < c / p := div_pos hcc hpp
          linarith
    · exact ih cur (fun p hp => hl p (List.mem_cons_of_mem _ hp))
        (fun v hv => hl cur (by simp) v hv) pr hpr

theorem pctChangeFill0_gt_neg_one (l : List (Int × Option ℚ))
    (hl : ∀ p ∈ l, ∀ v, p.2 = some v → 0 < v) :
    ∀ pr ∈ pctChangeFill0 l, -1 < pr.2 := by
  cases l with
  | nil => intro pr hpr; cases hpr
  | cons x t =>
    intro pr hpr
    rw [pctChangeFill0] at hpr
    rcases List.mem_cons.mp hpr with hpr | hpr
    · subst hpr; norm_num
    · exact pctChangeFill0Aux_gt_neg_one t x
        (fun p hp => hl p (List.mem_cons_of_mem _ hp))
        (fun v hv => hl x (by simp) v hv) pr hpr

/-- Every entry of every trade's position series exceeds -1 when all
prices are positive. -/
theorem segOf_gt_neg_one {env : Env} (hpos : ∀ t d v, env.col t d = some v → 0 < v)
    (t : String) (a b : Int) : ∀ pr ∈ segOf env t a b, -1 < pr.2 := by
  apply pctChangeFill0_gt_neg_one
  intro p hp v hv
  rcases List.mem_map.mp hp with ⟨d, _, hd⟩
  rw [← hd] at hv
  exact hpos t d v hv

theorem neg_length_lt_sum (l : List ℚ) (hne : l ≠ []) (h : ∀ x ∈ l, -1 < x) :
    -(l.length : ℚ) < l.sum := by
  induction l with
  | nil => exact absurd rfl hne
  | cons a t ih =>
    rw [List.sum_cons, List.length_cons]
    have ha : -1 < a := h a (by simp)
    cases t with
    | nil => simpa using ha
    | cons b t' =>
      have ht := ih (by simp) (fun x hx => h x (List.mem_cons_of_mem _ hx))
      push_cast
      push_cast at ht
      linarith

/-- The equal-weight daily portfolio return always exceeds -1 when all
prices are positive. -/
theorem dailyRet_gt_neg_one {env : Env} (hpos : ∀ t d v, env.col t d = some v → 0 < v)
    (trades : List TradeRec) (d : Int) : -1 < dailyRet env trades d := by
  rw [dailyRet]
  cases hvs : (openVals env trades d).isEmpty
  · have hne : openVals env trades d ≠ [] := by
      intro hc; rw [hc] at hvs; cases hvs
    simp only [hvs, Bool.false_eq_true, if_false]
    have hall : ∀ x ∈ openVals env trades d, -1 < x := by
      intro x hx
      rcases List.mem_filterMap.mp hx with ⟨tr, _, hlk⟩
      have hmem := mem_of_lookup_eq_some hlk
      exact segOf_gt_neg_one hpos tr.ticker tr.entryDate tr.exitDate (d, x) hmem
    have hsum := neg_length_lt_sum _ hne hall
    have hlen : (0 : ℚ) < (openVals env trades d).length := by
      have : 0 < (openVals env trades d).length := List.length_pos.mpr hne
      exact_mod_cast this
    have := (div_lt_div_iff_of_pos_right hlen).mpr hsum
    rw [neg_div, div_self (ne_of_gt hlen)] at this
    exact this
  · simp [hvs]

theorem cumprodFrom_pos (l : List ℚ) :
    ∀ acc : ℚ, 0 < acc → (∀ x ∈ l, 0 < x) → ∀ y ∈ cumprodFrom acc l, 0 < y := by
  induction l with
  | nil => intro acc _ _ y hy; cases hy
  | cons x t ih =>
    intro acc hacc hl y hy
    rw [cumprodFrom] at hy
    have hx : 0 < x := hl x (by simp)
    rcases List.mem_cons.mp hy with hy | hy
    · rw [hy]; exact mul_pos hacc hx
    · exact ih (acc * x) (mul_pos hacc hx) (fun z hz => hl z (List.mem_cons_of_mem _ hz)) y hy

/-- Every value of the strategy equity curve is positive when all prices
are positive. -/
theorem equityValues_pos {env : Env} (cfg : Cfg) (trades : List TradeRec)
    (hpos : ∀ t d v, env.col t d = some v → 0 < v) :
    ∀ y ∈ equityValues env cfg trades, 0 < y := by
  rw [equityValues]
  cases htr : trades.isEmpty
  · simp only [htr, Bool.false_eq_true, if_false]
    intro y hy
    apply cumprodFrom_pos _ 1 one_pos ?_ y hy
    intro x hx
    rcases List.mem_map.mp hx with ⟨d, _, hd⟩
    have := dailyRet_gt_neg_one hpos trades d
    rw [← hd]
    linarith
  · simp only [htr, if_true]
    intro y hy
    rcases List.mem_map.mp hy with ⟨_, _, h1⟩
    rw [← h1]
    exact one_pos

theorem drawdownsAux_bounds (l : List ℚ) :
    ∀ m : ℚ, 0 < m → (∀ x ∈ l, 0 < x) → ∀ y ∈ drawdownsAux m l, -1 < y ∧ y ≤ 0 := by
  induction l with
  | nil => intro m _ _ y hy; cases hy
  | cons x t ih =>
    intro m hm hl y hy
    have hx : 0 < x := hl x (by simp)
    have hmax : 0 < max m x := lt_of_lt_of_le hm (le_max_left m x)
    rw [drawdownsAux] at hy
    rcases List.mem_cons.mp hy with hy | hy
    · subst hy
      constructor
      · have : 0 < x / max m x := div_pos hx hmax
        linarith
      · have : x / max m x ≤ 1 := (div_le_one hmax).mpr (le_max_right m x)
        linarith
    · exact ih (max m x) hmax (fun z hz => hl z (List.mem_cons_of_mem _ hz)) y hy

theorem foldl_min_mem {α : Type} [LinearOrder α] (t : List α) : ∀ a : α, t.foldl min a ∈ a :: t := by
  induction t with
  | nil => intro a; simp
  | cons b t' ih =>
    intro a
    rw [List.foldl_cons]
    rcases min_choice a b with hc | hc <;> rw [hc]
    · rcases List.mem_cons.mp (ih a) with h | h <;> simp [h]
    · rcases List.mem_cons.mp (ih b) with h | h <;> simp [h]

theorem listMinQ_mem {l : List ℚ} (h : l ≠ []) : listMinQ l ∈ l := by
  cases l with
  | nil => exact absurd rfl h
  | cons a t => exact foldl_min_mem t a

/-- The length of the equity curve equals the length of the canonical
index. -/
theorem cumprodFrom_length (l : List ℚ) : ∀ acc, (cumprodFrom acc l).length = l.length := by
  induction l with
  | nil => intro acc; rfl
  | cons x t ih => intro acc; simp [cumprodFrom, ih]

theorem equityValues_length (env : Env) (cfg : Cfg) (trades : List TradeRec) :
    (equityValues env cfg trades).length = (dailyIndexOf env cfg).length := by
  rw [equityValues]
  cases htr : trades.isEmpty
  · simp only [htr, Bool.false_eq_true, if_false, cumprod, cumprodFrom_length, List.length_map]
  · simp only [htr, if_true, List.length_map]

theorem ffillOpt_pos :
    ∀ (l : List (Int × Option ℚ)) (last : Option ℚ),
      (∀ v, last = some v → 0 < v) →
      (∀ p ∈ l, ∀ v, p.2 = some v → 0 < v) →
      ∀ p ∈ ffillOpt last l, ∀ v, p.2 = some v → 0 < v := by
  intro l
  induction l with
  | nil => intro last _ _ p hp; cases hp
  | cons e t ih =>
    intro last hlast hl p hp v hv
    obtain ⟨d, w⟩ := e
    cases w with
    | some x =>
      rw [ffillOpt] at hp
      have hx : (0 : ℚ) < x := hl (d, some x) (by simp) x rfl
      rcases List.mem_cons.mp hp with h | h
      · subst h
        have hxv : x = v := Option.some.inj hv
        exact hxv ▸ hx
      · refine ih (some x) ?_ (fun q hq => hl q (List.mem_cons_of_mem _ hq)) p h v hv
        intro u hu
        have hxu : x = u := Option.some.inj hu
        exact hxu ▸ hx
    | none =>
      rw [ffillOpt] at hp
      rcases List.mem_cons.mp hp with h | h
      · subst h
        exact hlast v hv
      · exact ih last hlast (fun q hq => hl q (List.mem_cons_of_mem _ hq)) p h v hv

/-- Every (forward-filled) value of the benchmark series over the
canonical index is positive when all prices are positive. -/
theorem benchSeries_pos (env : Env) (cfg : Cfg)
    (hpos : ∀ t d v, env.col t d = some v → 0 < v) :
    ∀ p ∈ benchSeries env cfg, ∀ v, p.2 = some v → 0 < v := by
  rw [benchSeries]
  apply ffillOpt_pos
  · intro v hv
    cases hv
  · intro p hp v hv
    rcases List.mem_map.mp hp with ⟨d, _, hd⟩
    rw [← hd] at hv
    exact hpos cfg.benchmark d v hv

/-- Every benchmark daily return exceeds -1 when all prices are positive. -/
theorem benchReturns_gt_neg_one (env : Env) (cfg : Cfg)
    (hpos : ∀ t d v, env.col t d = some v → 0 < v) :
    ∀ r ∈ benchReturns env cfg, -1 < r := by
  intro r hr
  rw [benchReturns] at hr
  rcases List.mem_map.mp hr with ⟨pr, hpr, hsnd⟩
  rw [← hsnd]
  exact pctChangeFill0_gt_neg_one _ (benchSeries_pos env cfg hpos) pr hpr

/-- Every value of the benchmark equity curve is positive when all
prices are positive. -/
theorem benchEquityValues_pos (env : Env) (cfg : Cfg)
    (hpos : ∀ t d v, env.col t d = some v → 0 < v) :
    ∀ y ∈ benchEquityValues env cfg, 0 < y := by
  intro y hy
  rw [benchEquityValues] at hy
  apply cumprodFrom_pos _ 1 one_pos ?_ y hy
  intro x hx
  rcases List.mem_map.mp hx with ⟨r, hr, hxr⟩
  have h := benchReturns_gt_neg_one env cfg hpos r hr
  rw [← hxr]
  linarith

theorem ffillOpt_length : ∀ (l : List (Int × Option ℚ)) (last : Option ℚ),
    (ffillOpt last l).length = l.length := by
  intro l
  induction l with
  | nil => intro last; rfl
  | cons e t ih =>
    intro last
    obtain ⟨d, w⟩ := e
    cases w with
    | some x => simp [ffillOpt, ih]
    | none => simp [ffillOpt, ih]

theorem pctChangeFill0_length (l : List (Int × Option ℚ)) :
    (pctChangeFill0 l).length = l.length := by
  have h := congrArg List.length (pctChangeFill0_keys l)
  simpa using h

/-- The benchmark equity curve also has one value per canonical date. -/
theorem benchEquityValues_length (env : Env) (cfg : Cfg) :
    (benchEquityValues env cfg).length = (dailyIndexOf env cfg).length := by
  rw [benchEquityValues, cumprod, cumprodFrom_length, List.length_map, benchReturns,
    List.length_map, pctChangeFill0_length, benchSeries, ffillOpt_length, List.length_map]

/-- The max drawdown of any nonempty all-positive curve lies in (-1, 0]. -/
theorem maxDrawdownOf_bounds {l : List ℚ} (hne : l ≠ []) (hp : ∀ y ∈ l, 0 < y) :
    ∃ m, maxDrawdownOf l = some m ∧ -1 < m ∧ m ≤ 0 := by
  cases l with
  | nil => exact absurd rfl hne
  | cons x t =>
    rw [maxDrawdownOf]
    have hx : 0 < x := hp x (by simp)
    have hbounds := drawdownsAux_bounds (x :: t) x hx hp
    have hmem : listMinQ (drawdownsAux x (x :: t)) ∈ drawdownsAux x (x :: t) := by
      apply listMinQ_mem
      rw [drawdownsAux]
      simp
    have h := hbounds _ hmem
    exact ⟨_, rfl, h.1, h.2⟩

/-- C8: with positive prices, both equity curves the engine produces
(strategy and benchmark) have a max drawdown statistic that is NaN for an
empty canonical index and otherwise lies in the interval (-1, 0]: it
never reaches -100% because compounded equity stays strictly positive. -/
theorem c8_max_drawdown_bounds (env : Env) (cfg : Cfg)
    (hpos : ∀ t d v, env.col t d = some v → 0 < v) :
    (dailyIndexOf env cfg = [] →
      (runBacktest env cfg).stats.maxDrawdown = none ∧
      (runBacktest env cfg).stats.benchMaxDrawdown = none) ∧
    (dailyIndexOf env cfg ≠ [] →
      (∃ m, (runBacktest env cfg).stats.maxDrawdown = some m ∧ -1 < m ∧ m ≤ 0) ∧
      (∃ m, (runBacktest env cfg).stats.benchMaxDrawdown = some m ∧ -1 < m ∧ m ≤ 0)) := by
  have hshow : (runBacktest env cfg).stats.maxDrawdown =
      maxDrawdownOf (equityValues env cfg (sortedTradesDrift env cfg)) := rfl
  have hshowB : (runBacktest env cfg).stats.benchMaxDrawdown =
      maxDrawdownOf (benchEquityValues env cfg) := rfl
  constructor
  · intro hempty
    constructor
    · rw [hshow]
      have h0 : (equityValues env cfg (sortedTradesDrift env cfg)).length = 0 := by
        rw [equityValues_length, hempty]
        rfl
      rw [List.length_eq_zero.mp h0]
      rfl
    · rw [hshowB]
      have h0 : (benchEquityValues env cfg).length = 0 := by
        rw [benchEquityValues_length, hempty]
        rfl
      rw [List.length_eq_zero.mp h0]
      rfl
  · intro hne
    constructor
    · rw [hshow]
      have hlen : equityValues env cfg (sortedTradesDrift env cfg) ≠ [] := by
        intro hc
        apply hne
        have h0 := congrArg List.length hc
        rw [equityValues_length] at h0
        exact List.length_eq_zero.mp (by simpa using h0)
      exact maxDrawdownOf_bounds hlen (equityValues_pos cfg (sortedTradesDrift env cfg) hpos)
    · rw [hshowB]
      have hlen : benchEquityValues env cfg ≠ [] := by
        intro hc
        apply hne
        have h0 := congrArg List.length hc
        rw [benchEquityValues_length] at h0
        exact List.length_eq_zero.mp (by simpa using h0)
      exact maxDrawdownOf_bounds hlen (benchEquityValues_pos env cfg hpos)

/-- C8 witness: at the concrete run, the index is nonempty and both the
strategy and benchmark max drawdowns lie in (-1, 0]. -/
theorem c8_max_drawdown_bounds_witness :
    dailyIndexOf envW cfgW ≠ [] ∧
    (∃ m, (runBacktest envW cfgW).stats.maxDrawdown = some m ∧ -1 < m ∧ m ≤ 0) ∧
    (∃ m, (runBacktest envW cfgW).stats.benchMaxDrawdown = some m ∧ -1 < m ∧ m ≤ 0) := by
  have hpos : ∀ t d v, envW.col t d = some v → 0 < v := by
    intro t d v hv
    by_cases ht : t = "A" <;> by_cases htB : t = "B" <;> by_cases hd0 : d = 0 <;>
      by_cases hd91 : d = 91 <;> by_cases hd366 : d = 366 <;>
      simp [envW, ht, htB, hd0, hd91, hd366] at hv <;> subst hv <;> norm_num
  have hne : dailyIndexOf envW cfgW ≠ [] := by decide
  exact ⟨hne, (c8_max_drawdown_bounds envW cfgW hpos).2 hne⟩

/-- The trade `envC9`/`cfgC9` produces: its entry date (day -10) precedes
the backtest window. -/
def tradeC9 : TradeRec where
  ticker := "A"
  earnDate := 0
  entryDate := -10
  exitDate := 300
  r3 := some 0
  rHold := 1

theorem envC9_px : pxSeries envC9 "A" = [(-10, 1), (200, 2), (300, 2)] := by decide

theorem envC9_near91 : nearestDate [-10, 200, 300] 91 = some (-10) := by decide

theorem envC9_near366 : nearestDate [-10, 200, 300] 366 = some 300 := by decide

theorem envC9_lkm10 : List.lookup (-10 : Int) [((-10 : Int), (1 : ℚ)), (200, 2), (300, 2)] = some 1 := by decide

theorem envC9_lk300 : List.lookup (300 : Int) [((-10 : Int), (1 : ℚ)), (200, 2), (300, 2)] = some 2 := by decide

theorem envC9_step : tradeStepDrift envC9 cfgC9 "A" ⟨0, 0⟩ = some tradeC9 := by
  simp only [tradeStepDrift, envC9_px, tsNormalize]
  norm_num [envC9, cfgC9, effectiveEnd, listMinI, listMaxI, envC9_near91, envC9_near366,
    pctReturn, lastAtOrBefore, envC9_lkm10, envC9_lk300, tradeC9]

theorem envC9_trades : sortedTradesDrift envC9 cfgC9 = [tradeC9] := by
  have h2 : getEarningsDates envC9 "A" ⟨0, 0⟩ ⟨395, 0⟩ = [⟨0, 0⟩] := by decide
  have hded : pyDedup cfgC9.tickers = ["A"] := by decide
  have hfor : driftTradesFor envC9 cfgC9 "A" = [tradeC9] := by
    have hmin : cfgC9.minPriceHistoryDays = 300 := rfl
    have hstart : cfgC9.startDate = 0 := rfl
    have heff : effectiveEnd cfgC9 = 395 := by decide
    simp only [driftTradesFor, envC9_px]
    norm_num [hmin, hstart, heff, listMinI, listMaxI, h2, envC9_step, List.filterMap_cons]
  have h1 : ledgerDrift envC9 cfgC9 = [tradeC9] := by
    simp [ledgerDrift, hded, hfor]
  simp [sortedTradesDrift, h1, sortTrades]

theorem envC9_seg : segOf envC9 "A" (-10) 300 = [(-10, 0), (200, 1), (300, 0)] := by
  have hslice : (envC9.dates.filter (fun d => decide ((-10 : Int) ≤ d) && decide (d ≤ (300 : Int)))).map
      (fun d => (d, envC9.col "A" d)) = [(-10, some 1), (200, some 2), (300, some 2)] := by decide
  rw [segOf, hslice]
  norm_num [pctChangeFill0, pctChangeFill0Aux]

theorem envC9_dailyRet200 : dailyRet envC9 [tradeC9] 200 = 1 := by
  have hov : openVals envC9 [tradeC9] 200 = [1] := by
    rw [openVals, List.filterMap_cons]
    have : (segOf envC9 tradeC9.ticker tradeC9.entryDate tradeC9.exitDate).lookup 200 = some 1 := by
      show (segOf envC9 "A" (-10) 300).lookup 200 = some 1
      rw [envC9_seg]
      decide
    rw [this]
    rfl
  rw [dailyRet, hov]
  norm_num

/-- C9 counterexample: the strategy equity curve does not start at 1.
With the sparse index of `envC9`, the single trade's entry snaps to day
-10 (before `start_date`), so the curve's first value is
1 + (percent change of day 200) = 2. -/
theorem c9_counterexample_first_value :
    dailyIndexOf envC9 cfgC9 ≠ [] ∧
    (runBacktest envC9 cfgC9).equity.headD 0 = 2 ∧
    (runBacktest envC9 cfgC9).equity.headD 0 ≠ 1 := by
  have hidx : dailyIndexOf envC9 cfgC9 = [200, 300] := by decide
  have heq : (runBacktest envC9 cfgC9).equity =
      equityValues envC9 cfgC9 [tradeC9] := by
    show equityValues envC9 cfgC9 (sortedTradesDrift envC9 cfgC9) = _
    rw [envC9_trades]
  have hval : (equityValues envC9 cfgC9 [tradeC9]).headD 0 = 2 := by
    rw [equityValues]
    norm_num [hidx, cumprod, cumprodFrom, envC9_dailyRet200]
  refine ⟨by rw [hidx]; simp, ?_, ?_⟩
  · rw [heq, hval]
  · rw [heq, hval]
    norm_num

theorem filter_head_of_lb {l : List Int} (hs : List.Sorted (· < ·) l) {p : Int → Bool} {d : Int}
    (hd : d ∈ l.filter p) (hlb : ∀ x ∈ l.filter p, d ≤ x) :
    ∃ rest, l.filter p = d :: rest := by
  cases hf : l.filter p with
  | nil => rw [hf] at hd; cases hd
  | cons c rest =>
    rw [hf] at hd hlb
    rcases List.mem_cons.mp hd with h | h
    · exact ⟨rest, by rw [h]⟩
    · exfalso
      have hpair : List.Pairwise (· < ·) (c :: rest) := by
        rw [← hf]
        exact List.Pairwise.sublist (List.filter_sublist l) hs
      have hcd : c < d := (List.pairwise_cons.mp hpair).1 d h
      have hdc : d ≤ c := hlb c (by simp)
      exact absurd hcd (not_lt.mpr hdc)

/-- The benchmark equity curve always has first value exactly 1 (the first
percent change is the filled NaN). -/
theorem benchEquity_headD_one (env : Env) (cfg : Cfg) (hne : dailyIndexOf env cfg ≠ []) :
    (benchEquityValues env cfg).headD 0 = 1 := by
  rw [benchEquityValues, benchReturns, benchSeries]
  cases hidx : dailyIndexOf env cfg with
  | nil => exact absurd hidx hne
  | cons d rest =>
    rw [List.map_cons]
    cases hcol : env.col cfg.benchmark d with
    | none =>
      rw [ffillOpt]
      simp only [pctChangeFill0, List.map_cons, cumprod, cumprodFrom]
      norm_num
    | some x =>
      rw [ffillOpt]
      simp only [pctChangeFill0, List.map_cons, cumprod, cumprodFrom]
      norm_num

/-- A trade open on day `d` but entered no earlier than `d` contributes a
0 percent change on `d` (its position series starts at `d` with the
filled-NaN 0). -/
theorem seg_lookup_at_entry {env : Env} (hs : List.Sorted (· < ·) env.dates)
    (t : String) (a b d : Int) (ha : d ≤ a) {v : ℚ}
    (hlk : (segOf env t a b).lookup d = some v) : v = 0 := by
  have hsome : ((segOf env t a b).lookup d).isSome := by rw [hlk]; rfl
  have hdmem : d ∈ (segOf env t a b).map Prod.fst := lookup_isSome_iff_mem_keys.mp hsome
  rw [segOf, pctChangeFill0_keys, List.map_map] at hdmem
  have hdmem' : d ∈ env.dates.filter (fun x => decide (a ≤ x) && decide (x ≤ b)) := by
    rcases List.mem_map.mp hdmem with ⟨d', hd', hfst⟩
    have hde : d' = d := by simpa using hfst
    exact hde ▸ hd'
  have had : a ≤ d := by
    have h := List.of_mem_filter hdmem'
    simp only [Bool.and_eq_true, decide_eq_true_eq] at h
    exact h.1
  obtain rfl : a = d := le_antisymm had ha
  have hlb : ∀ x ∈ env.dates.filter (fun x => decide (a ≤ x) && decide (x ≤ b)), a ≤ x := by
    intro x hx
    have h := List.of_mem_filter hx
    simp only [Bool.and_eq_true, decide_eq_true_eq] at h
    exact h.1
  rcases filter_head_of_lb hs hdmem' hlb with ⟨rest, hslice⟩
  rw [segOf, hslice, List.map_cons, pctChangeFill0, List.lookup_cons_self] at hlk
  have := Option.some.inj hlk
  exact this.symm

/-- C9 (amended): the benchmark equity curve always starts at exactly 1;
the strategy equity curve starts at exactly 1 whenever no trade's
(snapped) entry date precedes the first canonical date — the
counterexample shows the unamended claim fails when an entry snaps before
`start_date`. -/
theorem c9_amended_first_value (env : Env) (cfg : Cfg)
    (hs : List.Sorted (· < ·) env.dates)
    (hne : dailyIndexOf env cfg ≠ [])
    (hentries : ∀ tr ∈ (runBacktest env cfg).trades,
      (dailyIndexOf env cfg).headD 0 ≤ tr.entryDate) :
    (runBacktest env cfg).equity.headD 0 = 1 ∧
    (runBacktest env cfg).benchEquity.headD 0 = 1 := by
  constructor
  · show (equityValues env cfg (sortedTradesDrift env cfg)).headD 0 = 1
    cases hidx : dailyIndexOf env cfg with
    | nil => exact absurd hidx hne
    | cons d rest =>
      have hent : ∀ tr ∈ sortedTradesDrift env cfg, d ≤ tr.entryDate := by
        intro tr htr
        have := hentries tr htr
        rw [hidx] at this
        simpa using this
      rw [equityValues]
      cases htr : (sortedTradesDrift env cfg).isEmpty
      · have hdr : dailyRet env (sortedTradesDrift env cfg) d = 0 := by
          have hall : ∀ v ∈ openVals env (sortedTradesDrift env cfg) d, v = 0 := by
            intro v hv
            rcases List.mem_filterMap.mp hv with ⟨tr, htr', hlk⟩
            exact seg_lookup_at_entry hs tr.ticker tr.entryDate tr.exitDate d
              (hent tr htr') hlk
          rw [dailyRet]
          cases hvs : (openVals env (sortedTradesDrift env cfg) d).isEmpty
          · simp only [hvs, Bool.false_eq_true, if_false]
            rw [List.sum_eq_zero hall, zero_div]
          · simp [hvs]
        simp only [htr, Bool.false_eq_true, if_false, hidx, List.map_cons, cumprod, cumprodFrom]
        rw [hdr]
        norm_num
      · simp only [htr, if_true, hidx, List.map_cons]
        rfl
  · show (benchEquityValues env cfg).headD 0 = 1
    exact benchEquity_headD_one env cfg hne

/-- C9 amended-claim witness: the concrete run `envW`/`cfgW`, whose single
trade enters at day 91 ≥ the first canonical date 0. -/
theorem c9_amended_first_value_witness :
    (runBacktest envW cfgW).equity.headD 0 = 1 ∧
    (runBacktest envW cfgW).benchEquity.headD 0 = 1 := by
  apply c9_amended_first_value envW cfgW (by decide) (by decide)
  intro tr htr
  have htr' : tr ∈ [tradeW] := by
    rw [← envW_trades]
    exact htr
  have : tr = tradeW := List.mem_singleton.mp htr'
  rw [this]
  decide

theorem listMinI_mem {l : List Int} (h : l ≠ []) : listMinI l ∈ l := by
  cases l with
  | nil => exact absurd rfl h
  | cons a t => exact foldl_min_mem t a

theorem getLast?_mem {α : Type} : ∀ (l : List α) (m : α), l.getLast? = some m → m ∈ l := by
  intro l
  induction l with
  | nil => intro m hm; cases hm
  | cons a t ih =>
    intro m hm
    cases t with
    | nil =>
      cases hm
      simp
    | cons b t' =>
      rw [List.getLast?_cons_cons] at hm
      exact List.mem_cons_of_mem a (ih m hm)

theorem pairwise_le_getLast {β : Type} :
    ∀ l : List (Int × β), l.Pairwise (fun x y => x.1 < y.1) →
      ∀ m, l.getLast? = some m → ∀ x ∈ l, x.1 ≤ m.1 := by
  intro l
  induction l with
  | nil => intro _ m hm; cases hm
  | cons a t ih =>
    intro hp m hm x hx
    cases t with
    | nil =>
      cases hm
      rcases List.mem_cons.mp hx with h | h
      · exact le_of_eq (congrArg Prod.fst h)
      · cases h
    | cons b t' =>
      rw [List.getLast?_cons_cons] at hm
      have hmem : m ∈ b :: t' := getLast?_mem _ m hm
      rcases List.mem_cons.mp hx with h | h
      · subst h
        exact le_of_lt ((List.pairwise_cons.mp hp).1 m hmem)
      · exact ih (List.pairwise_cons.mp hp).2 m hm x h

/-- `lastAtOrBefore` returns the last (in list order) eligible entry. -/
theorem lastAtOrBefore_fold_spec (c : Int) :
    ∀ (t : List (Int × ℚ)) (acc : Option ℚ),
      t.foldl (fun acc e => if e.1 ≤ c then some e.2 else acc) acc =
        match (t.filter (fun e => decide (e.1 ≤ c))).getLast? with
        | some e => some e.2
        | none => acc := by
  intro t
  induction t with
  | nil => intro acc; rfl
  | cons e t' ih =>
    intro acc
    rw [List.foldl_cons, ih, List.filter_cons]
    by_cases he : e.1 ≤ c
    · rw [if_pos he]
      rw [if_pos (show decide (e.1 ≤ c) = true from by simpa using he)]
      cases hl : (t'.filter (fun e => decide (e.1 ≤ c))).getLast? with
      | none =>
        have hnil : t'.filter (fun e => decide (e.1 ≤ c)) = [] :=
          List.getLast?_eq_none_iff.mp hl
        rw [hnil]
        rfl
      | some m =>
        cases hf : t'.filter (fun e => decide (e.1 ≤ c)) with
        | nil =>
          rw [hf] at hl
          cases hl
        | cons y ys =>
          rw [hf] at hl
          rw [List.getLast?_cons_cons, hl]
    · rw [if_neg he]
      rw [if_neg (show ¬decide (e.1 ≤ c) = true from by simpa using he)]

/-- On a date-sorted series, `lastAtOrBefore` returns the value at the
greatest date at or before the cutoff (the "prior close"), as soon as any
date qualifies. -/
theorem lastAtOrBefore_spec {px : List (Int × ℚ)} (hs : List.Sorted (· < ·) (px.map Prod.fst))
    {c d0 : Int} (hd0 : d0 ∈ px.map Prod.fst) (hle : d0 ≤ c) :
    ∃ d v, lastAtOrBefore px c = some v ∧ (d, v) ∈ px ∧ d ≤ c ∧
      ∀ e ∈ px, e.1 ≤ c → e.1 ≤ d := by
  rcases List.mem_map.mp hd0 with ⟨e0, he0, hfst⟩
  have helig : e0 ∈ px.filter (fun e => decide (e.1 ≤ c)) :=
    List.mem_filter.mpr ⟨he0, by simp [hfst ▸ hle]⟩
  obtain ⟨m, hm⟩ : ∃ m, (px.filter (fun e => decide (e.1 ≤ c))).getLast? = some m := by
    cases h : (px.filter (fun e => decide (e.1 ≤ c))).getLast? with
    | none =>
      rw [List.getLast?_eq_none_iff.mp h] at helig
      cases helig
    | some m => exact ⟨m, rfl⟩
  have hlast : lastAtOrBefore px c = some m.2 := by
    rw [lastAtOrBefore, lastAtOrBefore_fold_spec, hm]
  have hmmem : m ∈ px.filter (fun e => decide (e.1 ≤ c)) := getLast?_mem _ m hm
  have hmpx : m ∈ px := List.mem_of_mem_filter hmmem
  have hmc : m.1 ≤ c := by
    have h := List.of_mem_filter hmmem
    simpa using h
  have hmax : ∀ e ∈ px, e.1 ≤ c → e.1 ≤ m.1 := by
    intro e he hec
    have hef : e ∈ px.filter (fun e => decide (e.1 ≤ c)) :=
      List.mem_filter.mpr ⟨he, by simp [hec]⟩
    have hpf : (px.filter (fun e => decide (e.1 ≤ c))).Pairwise (fun x y => x.1 < y.1) :=
      List.Pairwise.sublist (List.filter_sublist px) (List.pairwise_map.mp hs)
    exact pairwise_le_getLast _ hpf m hm e hef
  exact ⟨m.1, m.2, hlast, by simpa using hmpx, hmc, hmax⟩

/-- The price-date index of a ticker is the union index filtered to the
dates where the column has a value. -/
theorem pxSeries_keys (env : Env) (tkr : String) :
    (pxSeries env tkr).map Prod.fst = env.dates.filter (fun d => (env.col tkr d).isSome) := by
  rw [pxSeries]
  induction env.dates with
  | nil => rfl
  | cons d t ih =>
    rw [List.filterMap_cons, List.filter_cons]
    cases hc : env.col tkr d with
    | none => simpa [hc] using ih
    | some v => simpa [hc] using ih

theorem pxSeries_keys_sorted (env : Env) (tkr : String)
    (hs : List.Sorted (· < ·) env.dates) :
    List.Sorted (· < ·) ((pxSeries env tkr).map Prod.fst) := by
  rw [pxSeries_keys]
  exact List.Pairwise.sublist (List.filter_sublist env.dates) hs

theorem mem_pxSeries_col {env : Env} {tkr : String} {d : Int} {v : ℚ}
    (h : (d, v) ∈ pxSeries env tkr) : env.col tkr d = some v := by
  rcases List.mem_filterMap.mp h with ⟨d', _, hf⟩
  cases hc : env.col tkr d' with
  | none => rw [hc] at hf; cases hf
  | some w =>
    rw [hc] at hf
    have h1 : d' = d := congrArg Prod.fst (Option.some.inj hf)
    have h2 : w = v := congrArg Prod.snd (Option.some.inj hf)
    rw [← h1, hc, h2]

/-- C10: for an event that reaches the signal computation — normalized
earnings date at or after the first available price date, snapped entry
date in the ticker's price index, positive prices — `pct_return` is
defined (never NaN): both endpoints resolve to the last available price at
or before their date, the earnings-date endpoint being the prior close
when the earnings date is a non-trading day; so the NaN-discard branch is
unreachable under these preconditions. -/
theorem c10_signal_return_defined (env : Env) (tkr : String) (E entryTs : Int)
    (hs : List.Sorted (· < ·) env.dates)
    (hpos : ∀ t d v, env.col t d = some v → 0 < v)
    (hpne : pxSeries env tkr ≠ [])
    (hE : listMinI ((pxSeries env tkr).map Prod.fst) ≤ E)
    (hmem : entryTs ∈ (pxSeries env tkr).map Prod.fst) :
    ∃ b s, lastAtOrBefore (pxSeries env tkr) E = some b ∧
      lastAtOrBefore (pxSeries env tkr) entryTs = some s ∧
      pctReturn (pxSeries env tkr) E entryTs = some (s / b - 1) ∧
      0 < b ∧
      (∃ d, (d, b) ∈ pxSeries env tkr ∧ d ≤ E ∧
        ∀ e ∈ pxSeries env tkr, e.1 ≤ E → e.1 ≤ d) := by
  have hkeys : List.Sorted (· < ·) ((pxSeries env tkr).map Prod.fst) :=
    pxSeries_keys_sorted env tkr hs
  have hkne : (pxSeries env tkr).map Prod.fst ≠ [] := by
    intro hc
    exact hpne (List.map_eq_nil_iff.mp hc)
  have hminmem : listMinI ((pxSeries env tkr).map Prod.fst) ∈ (pxSeries env tkr).map Prod.fst :=
    listMinI_mem hkne
  rcases lastAtOrBefore_spec hkeys hminmem hE with ⟨d, b, hb, hbmem, hdE, hdmax⟩
  rcases lastAtOrBefore_spec hkeys hmem (le_refl entryTs) with ⟨d', s, hsome, _, _, _⟩
  refine ⟨b, s, hb, hsome, ?_, ?_, d, hbmem, hdE, hdmax⟩
  · rw [pctReturn, hsome, hb]
  · exact hpos tkr d b (mem_pxSeries_col hbmem)

/-- C10 witness: the concrete run's event (earnings day 0, snapped entry
day 91) has a defined signal return with prior close at day 0. -/
theorem c10_signal_return_defined_witness :
    ∃ b s, lastAtOrBefore (pxSeries envW "A") 0 = some b ∧
      lastAtOrBefore (pxSeries envW "A") 91 = some s ∧
      pctReturn (pxSeries envW "A") 0 91 = some (s / b - 1) ∧
      0 < b ∧
      (∃ d, (d, b) ∈ pxSeries envW "A" ∧ d ≤ 0 ∧
        ∀ e ∈ pxSeries envW "A", e.1 ≤ 0 → e.1 ≤ d) := by
  apply c10_signal_return_defined envW "A" 0 91 (by decide) ?_ (by decide) (by decide) (by decide)
  intro t d v hv
  by_cases ht : t = "A" <;> by_cases htB : t = "B" <;> by_cases hd0 : d = 0 <;>
    by_cases hd91 : d = 91 <;> by_cases hd366 : d = 366 <;>
    simp [envW, ht, htB, hd0, hd91, hd366] at hv <;> subst hv <;> norm_num
